import Mathlib

/-!
# Raft: greedy feasibility check and capacity binary search

Shallow embedding of `src/dsa-tasks/raft/Raft.cpp`.

* C++ `int` values (the weights, the key handed to `multiset<int>::upper_bound`,
  the value returned by `minCapacity`) are integers in `[-2^31, 2^31 - 1]`;
  a conversion of a `long long` to `int` is `toInt32` (two's-complement wrap).
* C++ `long long` values (`cap`, `remaining`, `low`, `high`, `mid`) are
  mathematical integers: every value the program forms from `int` weights stays far
  below `2^63`.
* `multiset<int> goats` is its sorted (non-decreasing) sequence of elements, an
  iterator is a position in that sequence (`begin` is position `0`).
-/

namespace Raft

set_option linter.unusedVariables false

/-- Conversion of a `long long` to `int`: reduction modulo `2^32` into
`[-2^31, 2^31 - 1]`. -/
def toInt32 (x : Int) : Int :=
  (x + 2147483648) % 4294967296 - 2147483648

/-- The working multiset built at `Raft.cpp:6`: the weights in sorted order. -/
def mkGoats (weights : List Int) : List Int :=
  List.insertionSort (· ≤ ·) weights

/-- Position returned by `goats.upper_bound(key)`: the first position whose element is
greater than `key` (the number of leading elements `≤ key` of the sorted sequence). -/
def upperBound (key : Int) : List Int → Nat
  | [] => 0
  | w :: goats => if key < w then 0 else upperBound key goats + 1

/-- The inner `while` loop of `canCarry` (`Raft.cpp:9-15`), one trip.
`goats.upper_bound(remaining)` takes a `const int&`, so the `long long` `remaining`
is converted to `int` at the call.  After `iterator--` the position is inside the
sequence (`upperBound_le_length`), so the default of `getD` is never read.  Every
iteration that does not `break` erases one element, so `goats.length` iterations of
fuel are enough (`tripLoop_fuel`). -/
def tripLoop : Nat → Int → List Int → List Int
  | 0, _, goats => goats
  | fuel + 1, remaining, goats =>
    if goats.isEmpty then goats
    else
      let iterator := upperBound (toInt32 remaining) goats
      if iterator = 0 then goats
      else
        let iterator := iterator - 1
        tripLoop fuel (remaining - goats.getD iterator 0) (goats.eraseIdx iterator)

/-- One iteration of the outer `for` loop body: a whole trip starting with
`remaining = cap`. -/
def trip (cap : Int) (goats : List Int) : List Int :=
  tripLoop goats.length cap goats

/-- The outer `for` loop of `canCarry` (`Raft.cpp:7-16`); the first argument is the
number of iterations `k - i` still allowed by `i < k`. -/
def tripsLoop (cap : Int) : Nat → List Int → List Int
  | 0, goats => goats
  | trips + 1, goats =>
    if goats.isEmpty then goats else tripsLoop cap trips (trip cap goats)

/-- `bool canCarry(int k, const vector<int>& weights, long long cap)`. -/
def canCarry (k : Int) (weights : List Int) (cap : Int) : Bool :=
  (tripsLoop cap k.toNat (mkGoats weights)).isEmpty

/-- `*max_element(weights.begin(), weights.end())`: the running largest element is
replaced when it is `<` the next one.  On an empty vector the dereferenced iterator
is `end()`, which has no value. -/
def maxElement : List Int → Option Int
  | [] => none
  | w :: weights => some (weights.foldl (fun largest x => if largest < x then x else largest) w)

/-- The accumulation `for (int w : weights) high += w` starting from `high = 0`. -/
def totalWeight (weights : List Int) : Int :=
  weights.foldl (fun high w => high + w) 0

/-- The `while (low < high)` loop of `minCapacity` (`Raft.cpp:26-31`); `none` when the
fuel runs out before the loop exits.  `/` on `long long` truncates toward zero. -/
def searchLoop (k : Int) (weights : List Int) : Nat → Int → Int → Option Int
  | fuel, low, high =>
    if low < high then
      match fuel with
      | 0 => none
      | fuel + 1 =>
        let mid := Int.tdiv (low + high) 2
        if canCarry k weights mid then searchLoop k weights fuel low mid
        else searchLoop k weights fuel (mid + 1) high
    else some low

/-- `int minCapacity(int n, int k, const vector<int>& weights)`; the result is
`(int)low`.  `none` on an empty vector (dereference of `end()`).  The loop is given
`high - low` iterations, which it never uses up (`searchLoop_spec`). -/
def minCapacity (n : Int) (k : Int) (weights : List Int) : Option Int :=
  match maxElement weights with
  | none => none
  | some low =>
    let high := totalWeight weights
    (searchLoop k weights (high - low).toNat low high).map toInt32

/-- A distribution of the weights over at most `k` trips, none loaded above `cap`:
`groups` lists the loads of the trips. -/
def IsPacking (k : Nat) (weights : List Int) (cap : Int) (groups : List (List Int)) : Prop :=
  groups.length ≤ k ∧ List.Perm groups.flatten weights ∧ ∀ g ∈ groups, g.sum ≤ cap

/-- The body of the `while` loop of `minCapacity` (`Raft.cpp:27-30`) on the state
`(low, high)`. -/
def searchStep (k : Int) (weights : List Int) (s : Int × Int) : Int × Int :=
  let mid := Int.tdiv (s.1 + s.2) 2
  if canCarry k weights mid then (s.1, mid) else (mid + 1, s.2)

/-- The state `(low, high)` of the `while (low < high)` loop after `i` iterations, or
the state at which the loop exited when it exits earlier. -/
def searchState (k : Int) (weights : List Int) : Nat → Int × Int → Int × Int
  | 0, s => s
  | i + 1, s => if s.1 < s.2 then searchState k weights i (searchStep k weights s) else s

/-- Whether the inner `while` loop of `canCarry` runs a full iteration in the state
`(remaining, goats)`: the set is not empty (`Raft.cpp:9`) and `upper_bound` did not
return `begin()` (`Raft.cpp:11`). -/
def tripContinues (s : Int × List Int) : Bool :=
  !s.2.isEmpty && upperBound (toInt32 s.1) s.2 != 0

/-- The rest of the body of the inner loop (`Raft.cpp:12-14`) on the state
`(remaining, goats)`: step the iterator back, subtract its weight, erase it. -/
def tripStep (s : Int × List Int) : Int × List Int :=
  let iterator := upperBound (toInt32 s.1) s.2 - 1
  (s.1 - s.2.getD iterator 0, s.2.eraseIdx iterator)

/-- The state `(remaining, goats)` of the inner loop after `i` iterations, or the state
at which the loop was left when it is left earlier. -/
def tripState : Nat → Int × List Int → Int × List Int
  | 0, s => s
  | i + 1, s => if tripContinues s then tripState i (tripStep s) else s

end Raft

/-!
# Oranges: spreading from two seed cells

Shallow embedding of `main` in `src/dsa-tasks/oranges/Oranges.cpp`.

* `vector<vector<bool>> oranges` is the function from a position to its flag; the
  program reads and writes it only at positions inside the grid.
* `set<pair<int, int>>` is its sequence of elements in increasing order of
  `operator<` on pairs, without repetition.
* `K * L` is an `int` product, converted to the unsigned 64-bit type of
  `spoiled.size()` for the subtraction.
-/

namespace Oranges

/-- `operator<` of `pair<int, int>`: lexicographic. -/
def pairLt (a b : Int × Int) : Bool :=
  decide (a.1 < b.1) || (decide (a.1 = b.1) && decide (a.2 < b.2))

/-- `set::insert`: the element is put at its place in the order unless an equivalent
one (neither `<` the other) is already there. -/
def setInsert (c : Int × Int) : List (Int × Int) → List (Int × Int)
  | [] => [c]
  | d :: s =>
    if pairLt c d then c :: d :: s
    else if pairLt d c then d :: setInsert c s
    else d :: s

/-- The assignment `oranges[x][y] = false`. -/
def markSpoiled (oranges : Int → Int → Bool) (x y : Int) : Int → Int → Bool :=
  fun a b => if a = x ∧ b = y then false else oranges a b

/-- The vector `directions` of `Oranges.cpp:28`. -/
def directions : List (Int × Int) :=
  [(0, 1), (1, 0), (-1, 0), (0, -1)]

/-- The body of the loop over `directions` (`Oranges.cpp:33-39`) for the spoiled orange
`c`, on the state `(oranges, newlySpoiled)`. -/
def visit (K L : Int) (c : Int × Int) (st : (Int → Int → Bool) × List (Int × Int))
    (dir : Int × Int) : (Int → Int → Bool) × List (Int × Int) :=
  let nextX := c.1 + dir.1
  let nextY := c.2 + dir.2
  if nextX ≥ 0 ∧ nextX < K ∧ nextY ≥ 0 ∧ nextY < L ∧ st.1 nextX nextY = true then
    (markSpoiled st.1 nextX nextY, setInsert (nextX, nextY) st.2)
  else st

/-- One round (`Oranges.cpp:28-45`) on the state `(oranges, spoiled)`: the loop over
`spoiled` fills `newlySpoiled`, which is then inserted into `spoiled`. -/
def round (K L : Int) (st : (Int → Int → Bool) × List (Int × Int)) :
    (Int → Int → Bool) × List (Int × Int) :=
  let r := st.2.foldl (fun acc c => directions.foldl (visit K L c) acc) (st.1, [])
  (r.1, r.2.foldl (fun spoiled c => setInsert c spoiled) st.2)

/-- The loop `for (int i = 0; i < R; i++)`, given the number of rounds. -/
def rounds (K L : Int) : Nat → (Int → Int → Bool) × List (Int × Int) →
    (Int → Int → Bool) × List (Int × Int)
  | 0, st => st
  | i + 1, st => rounds K L i (round K L st)

/-- The state before the first round (`Oranges.cpp:15-24`): every orange good except
the two seeds. -/
def initial (x1 y1 x2 y2 : Int) : (Int → Int → Bool) × List (Int × Int) :=
  (markSpoiled (markSpoiled (fun _ _ => true) x1 y1) x2 y2,
    setInsert (x2, y2) (setInsert (x1, y1) []))

/-- The set `spoiled` after the `R` rounds. -/
def spoiledAfter (K L R x1 y1 x2 y2 : Int) : List (Int × Int) :=
  (rounds K L R.toNat (initial x1 y1 x2 y2)).2

/-- The value of `K * L - spoiled.size()`: the `int` product `K * L` (wrapping to 32
bits) is converted to the unsigned 64-bit type of `size()` and the difference is taken
modulo `2^64`. -/
def printedValue (K L : Int) (size : Nat) : Int :=
  (Raft.toInt32 (K * L) - size) % 18446744073709551616

/-- The number printed by `main` on the input `K L R x1 y1 x2 y2`; `none` when a seed
is outside the grid (the writes at `Oranges.cpp:21-23` are then out of bounds). -/
def main (K L R x1 y1 x2 y2 : Int) : Option Int :=
  if 0 ≤ x1 ∧ x1 < K ∧ 0 ≤ y1 ∧ y1 < L ∧ 0 ≤ x2 ∧ x2 < K ∧ 0 ≤ y2 ∧ y2 < L then
    some (printedValue K L (spoiledAfter K L R x1 y1 x2 y2).length)
  else none

/-- Manhattan distance between two cells. -/
def manhattan (a b : Int × Int) : Nat :=
  (a.1 - b.1).natAbs + (a.2 - b.2).natAbs

/-- A position inside the `K × L` grid. -/
def InGrid (K L : Int) (c : Int × Int) : Prop :=
  0 ≤ c.1 ∧ c.1 < K ∧ 0 ≤ c.2 ∧ c.2 < L

/-- The position `n` is `c` moved by one of the four `directions`. -/
def Step (c n : Int × Int) : Prop :=
  ∃ d ∈ directions, n = (c.1 + d.1, c.2 + d.2)

/-- Consistency of the state `(oranges, spoiled)` between rounds: the flags that are
`false` are those of the cells in `spoiled`, which is in increasing order and inside
the grid. -/
def StateInv (K L : Int) (st : (Int → Int → Bool) × List (Int × Int)) : Prop :=
  (∀ x y, st.1 x y = false ↔ (x, y) ∈ st.2) ∧
  List.Pairwise (fun a b => pairLt a b = true) st.2 ∧
  ∀ c ∈ st.2, InGrid K L c

/-- Consistency of the state `(oranges, newlySpoiled)` inside a round over the set
`spoiled`. -/
def RoundInv (K L : Int) (spoiled : List (Int × Int))
    (acc : (Int → Int → Bool) × List (Int × Int)) : Prop :=
  (∀ x y, acc.1 x y = false ↔ ((x, y) ∈ spoiled ∨ (x, y) ∈ acc.2)) ∧
  List.Pairwise (fun a b => pairLt a b = true) acc.2 ∧
  ∀ n ∈ acc.2, InGrid K L n ∧ ∃ c ∈ spoiled, Step c n

end Oranges

namespace Raft

set_option linter.unusedVariables false

/-! ## Conversion to `int` -/

theorem toInt32_of_inRange (x : Int) (h1 : -2147483648 ≤ x) (h2 : x ≤ 2147483647) :
    toInt32 x = x := by
  unfold toInt32
  omega

theorem toInt32_le_of_nonneg (x : Int) (h : 0 ≤ x) : toInt32 x ≤ x := by
  unfold toInt32
  omega

theorem toInt32_le_max (x : Int) : toInt32 x ≤ 2147483647 := by
  unfold toInt32
  omega

/-! ## `upper_bound`, dereference and `erase` on the sorted sequence -/

theorem upperBound_le_length (key : Int) (goats : List Int) :
    upperBound key goats ≤ goats.length := by
  induction goats with
  | nil => simp [upperBound]
  | cons w goats ih =>
    unfold upperBound
    split
    · omega
    · simp only [List.length_cons]; omega

theorem getD_le_of_lt_upperBound (key : Int) (goats : List Int) (i : Nat)
    (h : i < upperBound key goats) : goats.getD i 0 ≤ key := by
  induction goats generalizing i with
  | nil => simp [upperBound] at h
  | cons w goats ih =>
    unfold upperBound at h
    split at h
    · omega
    · cases i with
      | zero => simp only [List.getD_cons_zero]; omega
      | succ i => simp only [List.getD_cons_succ]; exact ih i (by omega)

theorem getD_mem (goats : List Int) (i : Nat) (h : i < goats.length) :
    goats.getD i 0 ∈ goats := by
  induction goats generalizing i with
  | nil => simp at h
  | cons w goats ih =>
    cases i with
    | zero => simp
    | succ i =>
      simp only [List.getD_cons_succ]
      exact List.mem_cons_of_mem _ (ih i (by simpa using h))

theorem perm_getD_eraseIdx (goats : List Int) (i : Nat) (h : i < goats.length) :
    List.Perm (goats.getD i 0 :: goats.eraseIdx i) goats := by
  induction goats generalizing i with
  | nil => simp at h
  | cons w goats ih =>
    cases i with
    | zero => simp
    | succ i =>
      simp only [List.getD_cons_succ, List.eraseIdx_cons_succ]
      exact (List.Perm.swap w (goats.getD i 0) (goats.eraseIdx i)).trans
        ((ih i (by simpa using h)).cons w)

theorem length_eraseIdx_of_lt (goats : List Int) (i : Nat) (h : i < goats.length) :
    (goats.eraseIdx i).length + 1 = goats.length := by
  have := (perm_getD_eraseIdx goats i h).length_eq
  simpa using this

/-! ## One trip -/

/-- What a trip removes is a load of total at most the starting `remaining`. -/
theorem tripLoop_sound (fuel : Nat) (remaining : Int) (goats : List Int)
    (h : 0 ≤ remaining) :
    ∃ load : List Int,
      List.Perm (load ++ tripLoop fuel remaining goats) goats ∧ load.sum ≤ remaining := by
  induction fuel generalizing remaining goats with
  | zero => exact ⟨[], by simp [tripLoop], by simpa using h⟩
  | succ fuel ih =>
    unfold tripLoop
    by_cases he : goats.isEmpty
    · exact ⟨[], by simp [he], by simpa using h⟩
    · by_cases hz : upperBound (toInt32 remaining) goats = 0
      · exact ⟨[], by simp [he, hz], by simpa using h⟩
      · have hlen := upperBound_le_length (toInt32 remaining) goats
        have hle := getD_le_of_lt_upperBound (toInt32 remaining) goats
          (upperBound (toInt32 remaining) goats - 1) (by omega)
        have hconv := toInt32_le_of_nonneg remaining h
        obtain ⟨load, hperm, hsum⟩ := ih
          (remaining - goats.getD (upperBound (toInt32 remaining) goats - 1) 0)
          (goats.eraseIdx (upperBound (toInt32 remaining) goats - 1)) (by omega)
        refine ⟨goats.getD (upperBound (toInt32 remaining) goats - 1) 0 :: load, ?_, ?_⟩
        · simp only [he, hz, Bool.false_eq_true, if_false, List.cons_append]
          refine List.Perm.trans ?_ (perm_getD_eraseIdx goats
            (upperBound (toInt32 remaining) goats - 1) (by omega))
          exact List.Perm.cons _ hperm
        · simp only [List.sum_cons]; omega

/-- The outer loop removes at most `trips` loads, each of total at most `cap`. -/
theorem tripsLoop_sound (cap : Int) (hcap : 0 ≤ cap) (trips : Nat) (goats : List Int) :
    ∃ groups : List (List Int),
      groups.length ≤ trips ∧
      List.Perm (groups.flatten ++ tripsLoop cap trips goats) goats ∧
      ∀ g ∈ groups, g.sum ≤ cap := by
  induction trips generalizing goats with
  | zero => exact ⟨[], by simp, by simp [tripsLoop], by simp⟩
  | succ trips ih =>
    unfold tripsLoop
    by_cases he : goats.isEmpty
    · exact ⟨[], by simp, by simp [he], by simp⟩
    · obtain ⟨load, hperm, hsum⟩ := tripLoop_sound goats.length cap goats hcap
      obtain ⟨groups, hlen, hperm2, hall⟩ := ih (trip cap goats)
      refine ⟨load :: groups, by simp only [List.length_cons]; omega, ?_, ?_⟩
      · simp only [he, Bool.false_eq_true, if_false, List.flatten_cons, List.append_assoc]
        exact (List.Perm.append_left load hperm2).trans hperm
      · intro g hg
        rcases List.mem_cons.mp hg with rfl | hg
        · exact hsum
        · exact hall g hg

theorem mkGoats_perm (weights : List Int) : List.Perm (mkGoats weights) weights :=
  List.perm_insertionSort _ weights

/-! ## Facts about a trip used by several results -/

theorem tripLoop_nil (fuel : Nat) (remaining : Int) : tripLoop fuel remaining [] = [] := by
  cases fuel <;> simp [tripLoop]

theorem tripsLoop_nil (cap : Int) (trips : Nat) : tripsLoop cap trips [] = [] := by
  cases trips <;> simp [tripsLoop]

/-- Fuel beyond the number of elements is never used: the trip is the same for every
fuel that is at least `goats.length`. -/
theorem tripLoop_fuel (fuel fuel2 : Nat) (remaining : Int) (goats : List Int)
    (h1 : goats.length ≤ fuel) (h2 : goats.length ≤ fuel2) :
    tripLoop fuel remaining goats = tripLoop fuel2 remaining goats := by
  induction fuel generalizing fuel2 remaining goats with
  | zero =>
    have : goats = [] := List.length_eq_zero.mp (by omega)
    subst this
    simp [tripLoop_nil]
  | succ fuel ih =>
    cases fuel2 with
    | zero =>
      have : goats = [] := List.length_eq_zero.mp (by omega)
      subst this
      simp [tripLoop_nil]
    | succ fuel2 =>
      unfold tripLoop
      by_cases he : goats.isEmpty
      · simp [he]
      · by_cases hz : upperBound (toInt32 remaining) goats = 0
        · simp [he, hz]
        · simp only [he, hz, Bool.false_eq_true, if_false]
          have hlen := upperBound_le_length (toInt32 remaining) goats
          have := length_eraseIdx_of_lt goats
            (upperBound (toInt32 remaining) goats - 1) (by omega)
          exact ih fuel2 _ _ (by omega) (by omega)

theorem tripLoop_sublist (fuel : Nat) (remaining : Int) (goats : List Int) :
    (tripLoop fuel remaining goats).Sublist goats := by
  induction fuel generalizing remaining goats with
  | zero => simp [tripLoop]
  | succ fuel ih =>
    unfold tripLoop
    by_cases he : goats.isEmpty
    · simp [he]
    · by_cases hz : upperBound (toInt32 remaining) goats = 0
      · simp [he, hz]
      · simp only [he, hz, Bool.false_eq_true, if_false]
        exact (ih _ _).trans (List.eraseIdx_sublist goats _)

theorem tripsLoop_sublist (cap : Int) (trips : Nat) (goats : List Int) :
    (tripsLoop cap trips goats).Sublist goats := by
  induction trips generalizing goats with
  | zero => simp [tripsLoop]
  | succ trips ih =>
    unfold tripsLoop
    by_cases he : goats.isEmpty
    · simp [he]
    · simp only [he, Bool.false_eq_true, if_false]
      exact (ih _).trans (tripLoop_sublist _ _ _)

theorem upperBound_eq_length (key : Int) (goats : List Int) (h : ∀ w ∈ goats, w ≤ key) :
    upperBound key goats = goats.length := by
  induction goats with
  | nil => simp [upperBound]
  | cons w goats ih =>
    unfold upperBound
    have hw : ¬ key < w := by have := h w (by simp); omega
    simp only [hw, if_false, List.length_cons]
    rw [ih (fun x hx => h x (List.mem_cons_of_mem _ hx))]

theorem sum_eq_getD_add_eraseIdx (goats : List Int) (i : Nat) (h : i < goats.length) :
    goats.sum = goats.getD i 0 + (goats.eraseIdx i).sum := by
  have := (perm_getD_eraseIdx goats i h).sum_eq
  simpa using this.symm

theorem mem_of_mem_eraseIdx (goats : List Int) (i : Nat) (w : Int)
    (h : w ∈ goats.eraseIdx i) : w ∈ goats :=
  (List.eraseIdx_sublist goats i).subset h

/-- A trip whose capacity covers the whole remaining load, and fits an `int`, takes
everything. -/
theorem tripLoop_takes_all (fuel : Nat) (remaining : Int) (goats : List Int)
    (hfuel : goats.length ≤ fuel) (hpos : ∀ w ∈ goats, 0 ≤ w)
    (hsum : goats.sum ≤ remaining) (hmax : remaining ≤ 2147483647) :
    tripLoop fuel remaining goats = [] := by
  induction fuel generalizing remaining goats with
  | zero => simpa [tripLoop] using hfuel
  | succ fuel ih =>
    unfold tripLoop
    by_cases he : goats.isEmpty
    · rw [if_pos he]; exact List.isEmpty_iff.mp he
    · have hne : goats ≠ [] := by simpa using he
      have hlen : 0 < goats.length := List.length_pos.mpr hne
      have hsum0 : 0 ≤ goats.sum := List.sum_nonneg hpos
      have hconv : toInt32 remaining = remaining :=
        toInt32_of_inRange remaining (by omega) hmax
      have hub : upperBound (toInt32 remaining) goats = goats.length := by
        rw [hconv]
        apply upperBound_eq_length
        intro w hw
        have := List.single_le_sum hpos w hw
        omega
      have hz : ¬ upperBound (toInt32 remaining) goats = 0 := by omega
      simp only [he, hz, Bool.false_eq_true, if_false]
      rw [hub]
      have hs := sum_eq_getD_add_eraseIdx goats (goats.length - 1) (by omega)
      have hl := length_eraseIdx_of_lt goats (goats.length - 1) (by omega)
      have hm := hpos _ (getD_mem goats (goats.length - 1) (by omega))
      apply ih
      · omega
      · exact fun w hw => hpos w (mem_of_mem_eraseIdx goats _ w hw)
      · omega
      · omega

theorem canCarry_of_total_le (k : Int) (weights : List Int) (cap : Int) (hk : 1 ≤ k)
    (hpos : ∀ w ∈ weights, 0 ≤ w) (hsum : weights.sum ≤ cap) (hmax : cap ≤ 2147483647) :
    canCarry k weights cap = true := by
  unfold canCarry
  obtain ⟨t, ht⟩ : ∃ t, k.toNat = t + 1 := ⟨k.toNat - 1, by omega⟩
  rw [ht, List.isEmpty_iff]
  unfold tripsLoop
  by_cases he : (mkGoats weights).isEmpty
  · rw [if_pos he]; exact List.isEmpty_iff.mp he
  · simp only [he, Bool.false_eq_true, if_false]
    have hp := mkGoats_perm weights
    unfold trip
    rw [tripLoop_takes_all _ cap (mkGoats weights) (le_refl _)
      (fun w hw => hpos w (hp.mem_iff.mp hw)) (by rw [hp.sum_eq]; exact hsum) hmax]
    exact tripsLoop_nil cap t

/-- With positive weights and a capacity that is an `int`, a trip removes at least
one element as soon as the smallest remaining weight fits. -/
theorem trip_length_lt (cap : Int) (goats : List Int) (hne : goats ≠ [])
    (hfit : ∀ w ∈ goats, w ≤ cap) (hmin : -2147483648 ≤ cap) (hmax : cap ≤ 2147483647) :
    (trip cap goats).length < goats.length := by
  unfold trip
  obtain ⟨n, hn⟩ : ∃ n, goats.length = n + 1 :=
    ⟨goats.length - 1, by have := List.length_pos.mpr hne; omega⟩
  rw [hn]
  unfold tripLoop
  have he : goats.isEmpty = false := by simpa using hne
  have hub : upperBound (toInt32 cap) goats = goats.length := by
    rw [toInt32_of_inRange cap hmin hmax]
    exact upperBound_eq_length cap goats hfit
  have hz : ¬ upperBound (toInt32 cap) goats = 0 := by omega
  simp only [he, hz, Bool.false_eq_true, if_false]
  have hl := length_eraseIdx_of_lt goats (upperBound (toInt32 cap) goats - 1) (by omega)
  have := (tripLoop_sublist n (cap - goats.getD (upperBound (toInt32 cap) goats - 1) 0)
    (goats.eraseIdx (upperBound (toInt32 cap) goats - 1))).length_le
  omega

theorem tripsLoop_enough_trips (cap : Int) (trips : Nat) (goats : List Int)
    (hlen : goats.length ≤ trips) (hfit : ∀ w ∈ goats, w ≤ cap)
    (hmin : -2147483648 ≤ cap) (hmax : cap ≤ 2147483647) :
    tripsLoop cap trips goats = [] := by
  induction trips generalizing goats with
  | zero => simpa [tripsLoop] using hlen
  | succ trips ih =>
    unfold tripsLoop
    by_cases he : goats.isEmpty
    · rw [if_pos he]; exact List.isEmpty_iff.mp he
    · simp only [he, Bool.false_eq_true, if_false]
      have hne : goats ≠ [] := by simpa using he
      have := trip_length_lt cap goats hne hfit hmin hmax
      apply ih
      · omega
      · exact fun w hw => hfit w ((tripLoop_sublist _ _ _).subset hw)

theorem canCarry_of_enough_trips (k : Int) (weights : List Int) (cap : Int)
    (hk : (weights.length : Int) ≤ k) (hfit : ∀ w ∈ weights, w ≤ cap)
    (hmin : -2147483648 ≤ cap) (hmax : cap ≤ 2147483647) :
    canCarry k weights cap = true := by
  unfold canCarry
  rw [List.isEmpty_iff]
  have hp := mkGoats_perm weights
  apply tripsLoop_enough_trips cap k.toNat (mkGoats weights)
  · rw [hp.length_eq]; omega
  · exact fun w hw => hfit w (hp.mem_iff.mp hw)
  · exact hmin
  · exact hmax

/-- A weight above the capacity stays in the working set during a trip. -/
theorem tripLoop_keeps (fuel : Nat) (remaining : Int) (goats : List Int) (m : Int)
    (hm : m ∈ goats) (hpos : ∀ w ∈ goats, 0 < w) (hint : m ≤ 2147483647)
    (hmin : -2147483648 ≤ remaining) (hlt : remaining < m) :
    m ∈ tripLoop fuel remaining goats := by
  induction fuel generalizing remaining goats with
  | zero => simpa [tripLoop] using hm
  | succ fuel ih =>
    unfold tripLoop
    by_cases he : goats.isEmpty
    · simpa [he] using hm
    · by_cases hz : upperBound (toInt32 remaining) goats = 0
      · simpa [he, hz] using hm
      · simp only [he, hz, Bool.false_eq_true, if_false]
        have hlen := upperBound_le_length (toInt32 remaining) goats
        have hle := getD_le_of_lt_upperBound (toInt32 remaining) goats
          (upperBound (toInt32 remaining) goats - 1) (by omega)
        have hconv := toInt32_of_inRange remaining hmin (by omega)
        have hw := hpos _ (getD_mem goats (upperBound (toInt32 remaining) goats - 1) (by omega))
        have hperm := perm_getD_eraseIdx goats
          (upperBound (toInt32 remaining) goats - 1) (by omega)
        have hm2 : m ∈ goats.eraseIdx (upperBound (toInt32 remaining) goats - 1) := by
          rcases List.mem_cons.mp (hperm.mem_iff.mpr hm) with h | h
          · omega
          · exact h
        apply ih
        · exact hm2
        · exact fun w hw => hpos w (mem_of_mem_eraseIdx goats _ w hw)
        · omega
        · omega

theorem tripsLoop_keeps (cap : Int) (trips : Nat) (goats : List Int) (m : Int)
    (hm : m ∈ goats) (hpos : ∀ w ∈ goats, 0 < w) (hint : m ≤ 2147483647)
    (hmin : -2147483648 ≤ cap) (hlt : cap < m) :
    m ∈ tripsLoop cap trips goats := by
  induction trips generalizing goats with
  | zero => simpa [tripsLoop] using hm
  | succ trips ih =>
    unfold tripsLoop
    by_cases he : goats.isEmpty
    · simpa [he] using hm
    · simp only [he, Bool.false_eq_true, if_false]
      apply ih
      · exact tripLoop_keeps _ cap goats m hm hpos hint hmin hlt
      · exact fun w hw => hpos w ((tripLoop_sublist _ _ _).subset hw)

/-- A capacity from `-2^31` on that is below some positive `int` weight is rejected. -/
theorem canCarry_false_of_lt (k : Int) (weights : List Int) (cap m : Int)
    (hm : m ∈ weights) (hpos : ∀ w ∈ weights, 0 < w) (hint : m ≤ 2147483647)
    (hmin : -2147483648 ≤ cap) (hlt : cap < m) :
    canCarry k weights cap = false := by
  unfold canCarry
  have hp := mkGoats_perm weights
  have := tripsLoop_keeps cap k.toNat (mkGoats weights) m (hp.mem_iff.mpr hm)
    (fun w hw => hpos w (hp.mem_iff.mp hw)) hint hmin hlt
  cases h : tripsLoop cap k.toNat (mkGoats weights) with
  | nil => rw [h] at this; simp at this
  | cons a l => rfl

/-! ## `max_element` and the accumulated total -/

theorem foldl_largest (weights : List Int) (a : Int) :
    a ≤ weights.foldl (fun largest x => if largest < x then x else largest) a ∧
    (∀ x ∈ weights, x ≤ weights.foldl (fun largest x => if largest < x then x else largest) a) ∧
    (weights.foldl (fun largest x => if largest < x then x else largest) a = a ∨
      weights.foldl (fun largest x => if largest < x then x else largest) a ∈ weights) := by
  induction weights generalizing a with
  | nil => simp
  | cons w weights ih =>
    simp only [List.foldl_cons, List.mem_cons]
    obtain ⟨h1, h2, h3⟩ := ih (if a < w then w else a)
    by_cases haw : a < w
    · rw [if_pos haw] at h1 h2 h3 ⊢
      refine ⟨by omega, ?_, ?_⟩
      · intro x hx
        rcases hx with rfl | hx
        · exact h1
        · exact h2 x hx
      · rcases h3 with h3 | h3
        · right; left; exact h3
        · right; right; exact h3
    · rw [if_neg haw] at h1 h2 h3 ⊢
      refine ⟨h1, ?_, ?_⟩
      · intro x hx
        rcases hx with rfl | hx
        · omega
        · exact h2 x hx
      · rcases h3 with h3 | h3
        · left; exact h3
        · right; right; exact h3

theorem maxElement_spec (weights : List Int) (hne : weights ≠ []) :
    ∃ m, maxElement weights = some m ∧ m ∈ weights ∧ ∀ w ∈ weights, w ≤ m := by
  cases weights with
  | nil => exact absurd rfl hne
  | cons w weights =>
    obtain ⟨h1, h2, h3⟩ := foldl_largest weights w
    refine ⟨_, rfl, ?_, ?_⟩
    · rcases h3 with h3 | h3
      · rw [h3]; simp
      · exact List.mem_cons_of_mem _ h3
    · intro x hx
      rcases List.mem_cons.mp hx with rfl | hx
      · exact h1
      · exact h2 x hx

theorem totalWeight_eq_sum (weights : List Int) : totalWeight weights = weights.sum := by
  unfold totalWeight
  exact List.sum_eq_foldl.symm

/-! ## The binary search -/

/-- The loop exits within `high - low` iterations, at a capacity from `[low, high]`
that `canCarry` accepts and whose predecessor, when that was probed, it rejects. -/
theorem searchLoop_spec (k : Int) (weights : List Int) (fuel : Nat) (low high : Int)
    (hlow : 0 ≤ low) (hle : low ≤ high) (hfuel : (high - low).toNat ≤ fuel)
    (hhigh : canCarry k weights high = true) :
    ∃ r, searchLoop k weights fuel low high = some r ∧ low ≤ r ∧ r ≤ high ∧
      canCarry k weights r = true ∧ (low < r → canCarry k weights (r - 1) = false) := by
  induction fuel generalizing low high with
  | zero =>
    have : low = high := by omega
    subst this
    exact ⟨low, by simp [searchLoop], le_refl _, le_refl _, hhigh, fun h => absurd h (lt_irrefl _)⟩
  | succ fuel ih =>
    unfold searchLoop
    by_cases hlt : low < high
    · have hmid : Int.tdiv (low + high) 2 = (low + high) / 2 :=
        Int.tdiv_eq_ediv (by omega) (by omega)
      simp only [hlt, if_true]
      rw [hmid]
      by_cases hc : canCarry k weights ((low + high) / 2) = true
      · simp only [hc, if_true]
        obtain ⟨r, h1, h2, h3, h4, h5⟩ := ih low ((low + high) / 2) hlow (by omega) (by omega) hc
        exact ⟨r, h1, h2, by omega, h4, h5⟩
      · simp only [hc, Bool.false_eq_true, if_false]
        obtain ⟨r, h1, h2, h3, h4, h5⟩ :=
          ih ((low + high) / 2 + 1) high (by omega) (by omega) (by omega) hhigh
        refine ⟨r, h1, by omega, h3, h4, ?_⟩
        intro _
        by_cases hr : (low + high) / 2 + 1 < r
        · exact h5 hr
        · have : r - 1 = (low + high) / 2 := by omega
          rw [this]
          simpa using hc
    · have : low = high := by omega
      subst this
      exact ⟨low, by simp, le_refl _, le_refl _, hhigh, fun h => absurd h (lt_irrefl _)⟩

/-- The result of `minCapacity` on a well-formed input whose total is an `int`. -/
theorem minCapacity_spec (n k : Int) (weights : List Int) (hk : 1 ≤ k) (hne : weights ≠ [])
    (hpos : ∀ w ∈ weights, 0 < w) (hsum : weights.sum ≤ 2147483647) :
    ∃ m r, m ∈ weights ∧ (∀ w ∈ weights, w ≤ m) ∧ minCapacity n k weights = some r ∧
      m ≤ r ∧ r ≤ weights.sum ∧ canCarry k weights r = true ∧
      (m < r → canCarry k weights (r - 1) = false) := by
  obtain ⟨m, hm, hmem, hmax⟩ := maxElement_spec weights hne
  have hnn : ∀ w ∈ weights, 0 ≤ w := fun w hw => le_of_lt (hpos w hw)
  have hmle : m ≤ weights.sum := List.single_le_sum hnn m hmem
  have hm0 := hpos m hmem
  obtain ⟨r, h1, h2, h3, h4, h5⟩ := searchLoop_spec k weights (weights.sum - m).toNat m
    weights.sum (by omega) hmle (le_refl _)
    (canCarry_of_total_le k weights weights.sum hk hnn (le_refl _) hsum)
  refine ⟨m, r, hmem, hmax, ?_, h2, h3, h4, h5⟩
  unfold minCapacity
  rw [hm]
  simp only [totalWeight_eq_sum, h1, Option.map_some']
  rw [toInt32_of_inRange r (by omega) (by omega)]

/-! ## One and two trips: the load of a single trip grows with the capacity -/

theorem mkGoats_sorted (weights : List Int) : List.Sorted (· ≤ ·) (mkGoats weights) :=
  List.sorted_insertionSort (· ≤ ·) weights

theorem upperBound_mono (key : Int) (goats : List Int) :
    upperBound key goats ≤ upperBound (key + 1) goats := by
  induction goats with
  | nil => simp [upperBound]
  | cons w goats ih =>
    unfold upperBound
    by_cases h1 : key < w
    · simp [h1]
    · have h2 : ¬ key + 1 < w := by omega
      simp only [h1, h2, if_false]
      omega

/-- In a sorted sequence every element from position `upper_bound(key)` on is greater
than `key`. -/
theorem lt_getD_of_upperBound_le (key : Int) (goats : List Int)
    (hs : List.Sorted (· ≤ ·) goats) (i : Nat)
    (h1 : upperBound key goats ≤ i) (h2 : i < goats.length) : key < goats.getD i 0 := by
  induction goats generalizing i with
  | nil => simp at h2
  | cons w goats ih =>
    have hs2 := List.pairwise_cons.mp hs
    unfold upperBound at h1
    by_cases hk : key < w
    · cases i with
      | zero => simpa using hk
      | succ i =>
        simp only [List.getD_cons_succ]
        have := hs2.1 _ (getD_mem goats i (by simpa using h2))
        omega
    · simp only [hk, if_false] at h1
      cases i with
      | zero => omega
      | succ i =>
        simp only [List.getD_cons_succ]
        exact ih hs2.2 i (by omega) (by simpa using h2)

theorem tripLoop_of_nonpos (fuel : Nat) (goats : List Int) (hpos : ∀ w ∈ goats, 0 < w) :
    tripLoop fuel 0 goats = goats := by
  cases fuel with
  | zero => simp [tripLoop]
  | succ fuel =>
    unfold tripLoop
    cases goats with
    | nil => simp
    | cons w goats =>
      have hw := hpos w (by simp)
      have : toInt32 0 = 0 := by decide
      simp [this, upperBound, hw]

theorem sum_tripLoop_ge (fuel : Nat) (remaining : Int) (goats : List Int)
    (h : 0 ≤ remaining) : goats.sum - remaining ≤ (tripLoop fuel remaining goats).sum := by
  obtain ⟨load, hperm, hsum⟩ := tripLoop_sound fuel remaining goats h
  have := hperm.sum_eq
  simp only [List.sum_append] at this
  omega

/-- What a trip leaves behind does not grow when the capacity grows by one. -/
theorem sum_tripLoop_succ_le (fuel : Nat) (remaining : Int) (goats : List Int)
    (hs : List.Sorted (· ≤ ·) goats) (hpos : ∀ w ∈ goats, 0 < w)
    (h0 : 0 ≤ remaining) (hmax : remaining + 1 ≤ 2147483647) :
    (tripLoop fuel (remaining + 1) goats).sum ≤ (tripLoop fuel remaining goats).sum := by
  induction fuel generalizing remaining goats with
  | zero => simp [tripLoop]
  | succ fuel ih =>
    have hge := sum_tripLoop_ge (fuel + 1) remaining goats h0
    have hc1 : toInt32 remaining = remaining := toInt32_of_inRange _ (by omega) (by omega)
    have hc2 : toInt32 (remaining + 1) = remaining + 1 :=
      toInt32_of_inRange _ (by omega) (by omega)
    unfold tripLoop at hge ⊢
    by_cases he : goats.isEmpty
    · simp [he]
    · simp only [he, Bool.false_eq_true, if_false, hc1, hc2] at hge ⊢
      have hmono := upperBound_mono remaining goats
      have hlen := upperBound_le_length (remaining + 1) goats
      by_cases hz2 : upperBound (remaining + 1) goats = 0
      · have hz1 : upperBound remaining goats = 0 := by omega
        simp [hz1, hz2]
      · simp only [hz2, if_false] at hge ⊢
        by_cases heq : upperBound remaining goats = upperBound (remaining + 1) goats
        · have hz1 : ¬ upperBound remaining goats = 0 := by omega
          simp only [heq, hz2, if_false]
          have hle := getD_le_of_lt_upperBound remaining goats
            (upperBound (remaining + 1) goats - 1) (by omega)
          have hw := hpos _ (getD_mem goats (upperBound (remaining + 1) goats - 1) (by omega))
          have := ih (remaining - goats.getD (upperBound (remaining + 1) goats - 1) 0)
            (goats.eraseIdx (upperBound (remaining + 1) goats - 1))
            (List.Pairwise.sublist (List.eraseIdx_sublist goats _) hs)
            (fun w hw => hpos w (mem_of_mem_eraseIdx goats _ w hw)) (by omega) (by omega)
          rw [show remaining + 1 - goats.getD (upperBound (remaining + 1) goats - 1) 0
            = remaining - goats.getD (upperBound (remaining + 1) goats - 1) 0 + 1 by ring]
          exact this
        · have hle := getD_le_of_lt_upperBound (remaining + 1) goats
            (upperBound (remaining + 1) goats - 1) (by omega)
          have hgt := lt_getD_of_upperBound_le remaining goats hs
            (upperBound (remaining + 1) goats - 1) (by omega) (by omega)
          have hpick : goats.getD (upperBound (remaining + 1) goats - 1) 0 = remaining + 1 := by
            omega
          rw [hpick, sub_self, tripLoop_of_nonpos fuel _
            (fun w hw => hpos w (mem_of_mem_eraseIdx goats _ w hw))]
          have hs := sum_eq_getD_add_eraseIdx goats
            (upperBound (remaining + 1) goats - 1) (by omega)
          omega

theorem sum_le_of_trip_nil (cap : Int) (goats : List Int) (hcap : 0 ≤ cap)
    (h : trip cap goats = []) : goats.sum ≤ cap := by
  have := sum_tripLoop_ge goats.length cap goats hcap
  unfold trip at h
  rw [h] at this
  simpa using this

theorem tripsLoop_one (cap : Int) (goats : List Int) :
    tripsLoop cap 1 goats = trip cap goats := by
  unfold tripsLoop
  by_cases he : goats.isEmpty
  · have : goats = [] := List.isEmpty_iff.mp he
    subst this
    simp [trip, tripLoop]
  · simp [he, tripsLoop]

theorem tripsLoop_two (cap : Int) (goats : List Int) :
    tripsLoop cap 2 goats = trip cap (trip cap goats) := by
  unfold tripsLoop
  by_cases he : goats.isEmpty
  · have : goats = [] := List.isEmpty_iff.mp he
    subst this
    simp [trip, tripLoop]
  · simp [he, tripsLoop_one]

/-- With at most two trips `canCarry` is monotone in the capacity (inside `int`). -/
theorem canCarry_succ_of_le_two (k : Int) (weights : List Int) (cap : Int) (hk : k ≤ 2)
    (hpos : ∀ w ∈ weights, 0 < w) (hcap : 0 ≤ cap) (hmax : cap + 1 ≤ 2147483647)
    (h : canCarry k weights cap = true) : canCarry k weights (cap + 1) = true := by
  have hp := mkGoats_perm weights
  have hgpos : ∀ w ∈ mkGoats weights, 0 < w := fun w hw => hpos w (hp.mem_iff.mp hw)
  unfold canCarry at h ⊢
  rw [List.isEmpty_iff] at h ⊢
  by_cases h0 : k ≤ 0
  · have : k.toNat = 0 := by omega
    rw [this] at h ⊢
    simpa [tripsLoop] using h
  · by_cases h1 : k = 1
    · subst h1
      have : (1 : Int).toNat = 1 := rfl
      rw [this, tripsLoop_one] at h ⊢
      have hsum := sum_le_of_trip_nil cap _ hcap h
      exact tripLoop_takes_all _ _ _ (le_refl _) (fun w hw => le_of_lt (hgpos w hw))
        (by omega) hmax
    · have h2 : k = 2 := by omega
      subst h2
      have : (2 : Int).toNat = 2 := rfl
      rw [this, tripsLoop_two] at h ⊢
      have hsum := sum_le_of_trip_nil cap _ hcap h
      have hle := sum_tripLoop_succ_le (mkGoats weights).length cap (mkGoats weights)
        (mkGoats_sorted weights) hgpos hcap hmax
      exact tripLoop_takes_all _ _ _ (le_refl _)
        (fun w hw => le_of_lt (hgpos w ((tripLoop_sublist _ _ _).subset hw)))
        (by unfold trip at hsum ⊢; omega) hmax

theorem canCarry_mono_of_le_two (k : Int) (weights : List Int) (hk : k ≤ 2)
    (hpos : ∀ w ∈ weights, 0 < w) (cap : Int) (hcap : 0 ≤ cap) (d : Nat)
    (hmax : cap + d ≤ 2147483647) (h : canCarry k weights cap = true) :
    canCarry k weights (cap + d) = true := by
  induction d with
  | zero => simpa using h
  | succ d ih =>
    have := canCarry_succ_of_le_two k weights (cap + d) hk hpos (by omega)
      (by push_cast at hmax; omega) (ih (by push_cast at hmax; omega))
    rw [show cap + ((d + 1 : Nat) : Int) = cap + d + 1 by push_cast; ring]
    exact this

/-! ## Consequences of a distribution -/

theorem le_cap_of_isPacking (k : Nat) (weights : List Int) (cap : Int)
    (groups : List (List Int)) (hpos : ∀ w ∈ weights, 0 < w)
    (h : IsPacking k weights cap groups) : ∀ w ∈ weights, w ≤ cap := by
  intro w hw
  obtain ⟨_, hperm, hall⟩ := h
  obtain ⟨g, hg, hwg⟩ := List.mem_flatten.mp (hperm.mem_iff.mpr hw)
  have hgpos : ∀ x ∈ g, 0 ≤ x := fun x hx =>
    le_of_lt (hpos x (hperm.mem_iff.mp (List.mem_flatten.mpr ⟨g, hg, hx⟩)))
  have := List.single_le_sum hgpos w hwg
  have := hall g hg
  omega

theorem sum_le_cap_of_isPacking_one (weights : List Int) (cap : Int)
    (groups : List (List Int)) (hne : weights ≠ [])
    (h : IsPacking 1 weights cap groups) : weights.sum ≤ cap := by
  obtain ⟨hlen, hperm, hall⟩ := h
  match groups, hlen, hperm, hall with
  | [], _, hperm, _ =>
    have := hperm.length_eq
    simp only [List.flatten_nil, List.length_nil] at this
    exact absurd (List.length_eq_zero.mp this.symm) hne
  | [g], _, hperm, hall =>
    have hs := hperm.sum_eq
    simp only [List.flatten_cons, List.flatten_nil, List.append_nil] at hs
    have := hall g (by simp)
    omega
  | _ :: _ :: _, hlen, _, _ => simp at hlen

theorem exists_packing_of_canCarry (k : Int) (weights : List Int) (cap : Int)
    (hcap : 0 ≤ cap) (h : canCarry k weights cap = true) :
    ∃ groups : List (List Int), IsPacking k.toNat weights cap groups := by
  obtain ⟨groups, hlen, hperm, hall⟩ := tripsLoop_sound cap hcap k.toNat (mkGoats weights)
  unfold canCarry at h
  rw [List.isEmpty_iff] at h
  rw [h, List.append_nil] at hperm
  exact ⟨groups, hlen, hperm.trans (mkGoats_perm weights), hall⟩

theorem minCapacity_one_trip (n : Int) (weights : List Int) (hne : weights ≠ [])
    (hpos : ∀ w ∈ weights, 0 < w) (hsum : weights.sum ≤ 2147483647) :
    minCapacity n 1 weights = some weights.sum := by
  obtain ⟨m, r, hmem, _, hr, hmr, hrs, hc, _⟩ :=
    minCapacity_spec n 1 weights (le_refl _) hne hpos hsum
  have hm0 := hpos m hmem
  obtain ⟨groups, hg⟩ := exists_packing_of_canCarry 1 weights r (by omega) hc
  have := sum_le_cap_of_isPacking_one weights r groups hne hg
  have : r = weights.sum := by omega
  rw [hr, this]

theorem minCapacity_enough_trips (n k : Int) (weights : List Int) (hne : weights ≠ [])
    (hk : (weights.length : Int) ≤ k) (hpos : ∀ w ∈ weights, 0 < w)
    (hsum : weights.sum ≤ 2147483647) :
    ∃ m, maxElement weights = some m ∧ minCapacity n k weights = some m := by
  have hlen : 0 < weights.length := List.length_pos.mpr hne
  obtain ⟨m, r, hmem, hmax, hr, hmr, hrs, hc, hprev⟩ :=
    minCapacity_spec n k weights (by omega) hne hpos hsum
  obtain ⟨m2, hm2, hmem2, hmax2⟩ := maxElement_spec weights hne
  have hmm : m2 = m := le_antisymm (hmax m2 hmem2) (hmax2 m hmem)
  subst hmm
  refine ⟨m2, hm2, ?_⟩
  by_cases hlt : m2 < r
  · have h1 := hprev hlt
    have hm0 := hpos m2 hmem
    have h2 := canCarry_of_enough_trips k weights (r - 1) hk
      (fun w hw => by have := hmax w hw; omega) (by omega) (by omega)
    rw [h1] at h2
    exact absurd h2 (by simp)
  · have : r = m2 := by omega
    rw [hr, this]

/-! ## The scenarios of the specification, evaluated -/

theorem scenario_1 : minCapacity 3 2 [1, 2, 3] = some 3 := by decide

theorem scenario_2 : minCapacity 1 1 [5] = some 5 := by decide

theorem scenario_3 : minCapacity 4 4 [10, 10, 10, 10] = some 10 := by decide

theorem scenario_4 : minCapacity 5 1 [1, 2, 3, 4, 5] = some 15 := by decide

theorem scenario_5 : minCapacity 5 3 [3, 2, 2, 1, 1] = some 3 := by decide

theorem mem_of_maxElement (weights : List Int) (m : Int) (h : maxElement weights = some m) :
    m ∈ weights := by
  cases weights with
  | nil => simp [maxElement] at h
  | cons w weights =>
    obtain ⟨m2, h2, hmem, _⟩ := maxElement_spec (w :: weights) (by simp)
    rw [h] at h2
    cases h2
    exact hmem

/-! ## The claims about `canCarry` and `minCapacity` -/

/-- C1: for every `k ≥ 1` and every non-empty list of positive weights whose total fits
a 32-bit `int`, `minCapacity n k weights` returns a capacity `r` that is at least every
weight (`maxWeight ≤ r`), at most the total, and accepted by `canCarry`. -/
theorem minCapacity_feasible (n k : Int) (weights : List Int) (hk : 1 ≤ k)
    (hne : weights ≠ []) (hpos : ∀ w ∈ weights, 0 < w) (hsum : weights.sum ≤ 2147483647) :
    ∃ r, minCapacity n k weights = some r ∧ (∀ w ∈ weights, w ≤ r) ∧ r ≤ weights.sum ∧
      canCarry k weights r = true := by
  obtain ⟨m, r, _, hmax, hr, hmr, hrs, hc, _⟩ := minCapacity_spec n k weights hk hne hpos hsum
  exact ⟨r, hr, fun w hw => le_trans (hmax w hw) hmr, hrs, hc⟩

/-- Instance of `minCapacity_feasible` on a concrete input. -/
theorem minCapacity_feasible_witness :
    (1 : Int) ≤ 2 ∧ ([1, 2, 3] : List Int) ≠ [] ∧ (∀ w ∈ ([1, 2, 3] : List Int), 0 < w) ∧
    ([1, 2, 3] : List Int).sum ≤ 2147483647 ∧
    ∃ r, minCapacity 3 2 [1, 2, 3] = some r ∧ (∀ w ∈ ([1, 2, 3] : List Int), w ≤ r) ∧
      r ≤ ([1, 2, 3] : List Int).sum ∧ canCarry 2 [1, 2, 3] r = true :=
  ⟨by decide, by decide, by decide, by decide,
    minCapacity_feasible 3 2 [1, 2, 3] (by decide) (by decide) (by decide) (by decide)⟩

/-- C2, failing input: with `k = 3` and the ten weights below (largest `24`, total
`134`) `minCapacity` returns `47`, although `canCarry` accepts the smaller capacity
`45` of the search range and rejects `46`, the capacity probed before `47`. -/
theorem minCapacity_not_minimal :
    maxElement [6, 8, 9, 12, 12, 12, 14, 15, 22, 24] = some 24 ∧
    totalWeight [6, 8, 9, 12, 12, 12, 14, 15, 22, 24] = 134 ∧
    minCapacity 10 3 [6, 8, 9, 12, 12, 12, 14, 15, 22, 24] = some 47 ∧
    canCarry 3 [6, 8, 9, 12, 12, 12, 14, 15, 22, 24] 45 = true ∧
    canCarry 3 [6, 8, 9, 12, 12, 12, 14, 15, 22, 24] 46 = false := by
  decide

/-- Where the search does find the minimum: for `k ≥ 1` and a non-empty list of positive
weights whose total is an `int`, `canCarry` rejects `r - 1` for the returned `r` above
the largest weight, and with `k ≤ 2` it rejects every `c` with `maxWeight ≤ c < r`. -/
theorem minCapacity_local_minimum (n k : Int) (weights : List Int) (hk : 1 ≤ k)
    (hne : weights ≠ []) (hpos : ∀ w ∈ weights, 0 < w) (hsum : weights.sum ≤ 2147483647) :
    ∃ r, minCapacity n k weights = some r ∧
      ((∀ w ∈ weights, w < r) → canCarry k weights (r - 1) = false) ∧
      (k ≤ 2 → ∀ c, (∀ w ∈ weights, w ≤ c) → c < r → canCarry k weights c = false) := by
  obtain ⟨m, r, hmem, hmax, hr, hmr, hrs, hc, hprev⟩ :=
    minCapacity_spec n k weights hk hne hpos hsum
  refine ⟨r, hr, fun h => hprev (h m hmem), ?_⟩
  intro hk2 c hc1 hc2
  have hm0 := hpos m hmem
  have hmc := hc1 m hmem
  have hfalse := hprev (by omega)
  cases hcc : canCarry k weights c with
  | false => rfl
  | true =>
    have := canCarry_mono_of_le_two k weights hk2 hpos c (by omega) (r - 1 - c).toNat
      (by omega) hcc
    rw [show c + ((r - 1 - c).toNat : Int) = r - 1 by omega, hfalse] at this
    exact absurd this (by simp)

/-- C3, counterexample: with `k = 3` and the ten positive weights below `canCarry`
accepts capacity `45` and rejects capacity `46`. -/
theorem canCarry_not_monotone :
    canCarry 3 [6, 9, 9, 11, 12, 13, 14, 15, 22, 24] 45 = true ∧
    canCarry 3 [6, 9, 9, 11, 12, 13, 14, 15, 22, 24] (45 + 1) = false := by
  decide

/-- C3, amended: with at most two trips (`k ≤ 2`) `canCarry` is monotone in the
capacity, for capacities that are non-negative `int` values: for every list of positive
weights and `0 ≤ cap ≤ cap' ≤ 2^31 - 1`, if `canCarry k weights cap` holds then so does
`canCarry k weights cap'`. -/
theorem canCarry_monotone_two_trips (k : Int) (weights : List Int) (cap cap' : Int)
    (hk : k ≤ 2) (hpos : ∀ w ∈ weights, 0 < w) (hcap : 0 ≤ cap) (hle : cap ≤ cap')
    (hmax : cap' ≤ 2147483647) (h : canCarry k weights cap = true) :
    canCarry k weights cap' = true := by
  have := canCarry_mono_of_le_two k weights hk hpos cap hcap (cap' - cap).toNat
    (by omega) h
  rwa [show cap + ((cap' - cap).toNat : Int) = cap' by omega] at this

/-- Instance of `canCarry_monotone_two_trips` on a concrete input. -/
theorem canCarry_monotone_two_trips_witness :
    (2 : Int) ≤ 2 ∧ (∀ w ∈ ([1, 2, 3] : List Int), 0 < w) ∧ (0 : Int) ≤ 3 ∧ (3 : Int) ≤ 5 ∧
    (5 : Int) ≤ 2147483647 ∧ canCarry 2 [1, 2, 3] 3 = true ∧ canCarry 2 [1, 2, 3] 5 = true :=
  ⟨by decide, by decide, by decide, by decide, by decide, by decide,
    canCarry_monotone_two_trips 2 [1, 2, 3] 3 5 (by decide) (by decide) (by decide)
      (by decide) (by decide) (by decide)⟩

/-- C4, counterexample: for `k = 2` and weights `[2, 2, 2, 2, 3, 3]` the two groups
`[3, 2, 2]` and `[3, 2, 2]` carry everything with capacity `7`, but `minCapacity`
returns `8`. -/
theorem minCapacity_not_optimal :
    IsPacking 2 [2, 2, 2, 2, 3, 3] 7 [[3, 2, 2], [3, 2, 2]] ∧
    minCapacity 6 2 [2, 2, 2, 2, 3, 3] = some 8 := by
  unfold IsPacking
  decide

/-- C4, amended: for every `k ≥ 1` and every non-empty list of positive weights whose
total fits a 32-bit `int`, `minCapacity` returns a capacity `r` for which the weights
can be distributed over at most `k` trips, so `r` is an upper bound of the smallest
such capacity; when `k = 1` or `k` is at least the number of weights, `r` is that
smallest capacity. -/
theorem minCapacity_admits_packing (n k : Int) (weights : List Int) (hk : 1 ≤ k)
    (hne : weights ≠ []) (hpos : ∀ w ∈ weights, 0 < w) (hsum : weights.sum ≤ 2147483647) :
    ∃ r, minCapacity n k weights = some r ∧
      (∃ groups, IsPacking k.toNat weights r groups) ∧
      ((k = 1 ∨ (weights.length : Int) ≤ k) →
        ∀ c groups, IsPacking k.toNat weights c groups → r ≤ c) := by
  obtain ⟨m, r, hmem, hmax, hr, hmr, hrs, hc, _⟩ :=
    minCapacity_spec n k weights hk hne hpos hsum
  have hm0 := hpos m hmem
  refine ⟨r, hr, exists_packing_of_canCarry k weights r (by omega) hc, ?_⟩
  intro hcase c groups hg
  rcases hcase with h1 | hlen
  · subst h1
    have h2 := minCapacity_one_trip n weights hne hpos hsum
    rw [hr] at h2
    cases h2
    exact sum_le_cap_of_isPacking_one weights c groups hne hg
  · obtain ⟨m2, hm2, h2⟩ := minCapacity_enough_trips n k weights hne hlen hpos hsum
    rw [hr] at h2
    cases h2
    exact le_cap_of_isPacking _ weights c groups hpos hg r (mem_of_maxElement weights r hm2)

/-- Instance of `minCapacity_admits_packing` on a concrete input. -/
theorem minCapacity_admits_packing_witness :
    (1 : Int) ≤ 2 ∧ ([1, 2, 3] : List Int) ≠ [] ∧ (∀ w ∈ ([1, 2, 3] : List Int), 0 < w) ∧
    ([1, 2, 3] : List Int).sum ≤ 2147483647 ∧
    ∃ r, minCapacity 3 2 [1, 2, 3] = some r ∧
      (∃ groups, IsPacking (2 : Int).toNat [1, 2, 3] r groups) ∧
      (((2 : Int) = 1 ∨ (([1, 2, 3] : List Int).length : Int) ≤ 2) →
        ∀ c groups, IsPacking (2 : Int).toNat [1, 2, 3] c groups → r ≤ c) :=
  ⟨by decide, by decide, by decide, by decide,
    minCapacity_admits_packing 3 2 [1, 2, 3] (by decide) (by decide) (by decide) (by decide)⟩

/-- C5: `canCarry` is sound: for every `k`, every `cap ≥ 0` and every list of weights,
if `canCarry k weights cap` returns `true` then the weights can be split into at most
`k` groups (the loop runs `k.toNat` trips) whose sums are all at most `cap`. -/
theorem canCarry_sound (k : Int) (weights : List Int) (cap : Int) (hcap : 0 ≤ cap)
    (h : canCarry k weights cap = true) :
    ∃ groups : List (List Int), IsPacking k.toNat weights cap groups :=
  exists_packing_of_canCarry k weights cap hcap h

/-- Instance of `canCarry_sound` on a concrete input. -/
theorem canCarry_sound_witness :
    (0 : Int) ≤ 3 ∧ canCarry 2 [1, 2, 3] 3 = true ∧
    ∃ groups : List (List Int), IsPacking (2 : Int).toNat [1, 2, 3] 3 groups :=
  ⟨by decide, by decide, canCarry_sound 2 [1, 2, 3] 3 (by decide) (by decide)⟩

/-- C6, counterexample: for `k = 2`, `cap = 7` and weights `[2, 2, 2, 2, 3, 3]` the groups
`[3, 2, 2]`, `[3, 2, 2]` are a valid distribution, yet `canCarry` returns `false`. -/
theorem canCarry_not_tight :
    IsPacking 2 [2, 2, 2, 2, 3, 3] 7 [[3, 2, 2], [3, 2, 2]] ∧
    canCarry 2 [2, 2, 2, 2, 3, 3] 7 = false := by
  unfold IsPacking
  decide

/-- C6, amended: `canCarry` is tight when there is one trip or at least as many trips
as weights: for `k = 1` or `k ≥ weights.length`, positive weights and a capacity
`0 ≤ cap ≤ 2^31 - 1`, if a distribution over at most `k` groups with every
group sum at most `cap` exists then `canCarry k weights cap` returns `true`. -/
theorem canCarry_tight_small_or_many (k : Int) (weights : List Int) (cap : Int)
    (groups : List (List Int)) (hcase : k = 1 ∨ (weights.length : Int) ≤ k)
    (hpos : ∀ w ∈ weights, 0 < w) (hcap : 0 ≤ cap) (hmax : cap ≤ 2147483647)
    (h : IsPacking k.toNat weights cap groups) : canCarry k weights cap = true := by
  rcases hcase with h1 | hlen
  · subst h1
    by_cases hne : weights = []
    · subst hne
      exact canCarry_of_total_le 1 [] cap (le_refl _) (by simp) (by simpa using hcap) hmax
    · exact canCarry_of_total_le 1 weights cap (le_refl _) (fun w hw => le_of_lt (hpos w hw))
        (sum_le_cap_of_isPacking_one weights cap groups hne h) hmax
  · exact canCarry_of_enough_trips k weights cap hlen
      (le_cap_of_isPacking _ weights cap groups hpos h) (by omega) hmax

/-- Instance of `canCarry_tight_small_or_many` on a concrete input. -/
theorem canCarry_tight_small_or_many_witness :
    ((3 : Int) = 1 ∨ (([1, 2, 3] : List Int).length : Int) ≤ 3) ∧
    (∀ w ∈ ([1, 2, 3] : List Int), 0 < w) ∧ (0 : Int) ≤ 3 ∧ (3 : Int) ≤ 2147483647 ∧
    IsPacking (3 : Int).toNat [1, 2, 3] 3 [[1, 2], [3]] ∧ canCarry 3 [1, 2, 3] 3 = true :=
  ⟨by decide, by decide, by decide, by decide, by unfold IsPacking; decide,
    canCarry_tight_small_or_many 3 [1, 2, 3] 3 [[1, 2], [3]] (by decide) (by decide)
      (by decide) (by decide) (by unfold IsPacking; decide)⟩

/-- C7: for every `k` and every non-empty list of positive `int` weights with largest
element `m`, `canCarry k weights cap` is `false` for every capacity `cap < m`, in
particular for `cap = m - 1`: the largest weight is never removed from the working set.
Capacities are non-negative; the proof covers every `cap` from `-2^31` on. -/
theorem canCarry_false_below_max (k : Int) (weights : List Int) (cap m : Int)
    (hint : ∀ w ∈ weights, 0 < w ∧ w ≤ 2147483647) (hm : maxElement weights = some m)
    (hmin : -2147483648 ≤ cap) (hlt : cap < m) : canCarry k weights cap = false :=
  canCarry_false_of_lt k weights cap m (mem_of_maxElement weights m hm)
    (fun w hw => (hint w hw).1) (hint m (mem_of_maxElement weights m hm)).2 hmin hlt

/-- Instance of `canCarry_false_below_max` on a concrete input: five trips, three
weights, capacity one below the largest weight. -/
theorem canCarry_false_below_max_witness :
    (∀ w ∈ ([1, 2, 3] : List Int), 0 < w ∧ w ≤ 2147483647) ∧
    maxElement [1, 2, 3] = some 3 ∧ (-2147483648 : Int) ≤ 3 - 1 ∧ (3 - 1 : Int) < 3 ∧
    canCarry 5 [1, 2, 3] (3 - 1) = false :=
  ⟨by decide, by decide, by decide, by decide,
    canCarry_false_below_max 5 [1, 2, 3] (3 - 1) 3 (by decide) (by decide) (by decide)
      (by decide)⟩

/-- C8, failing input: for `k = 1` and the positive `int` weights `[2147483647, 1]` the
total is `2147483648`, and `canCarry` called with that total as capacity returns
`false`: `upper_bound` receives the capacity converted to `int`, `-2147483648`. -/
theorem canCarry_total_wraps :
    totalWeight [2147483647, 1] = 2147483648 ∧
    toInt32 2147483648 = -2147483648 ∧
    canCarry 1 [2147483647, 1] (totalWeight [2147483647, 1]) = false := by
  decide

/-- C9: with a single trip the answer is the total: for every non-empty list of
positive weights whose total fits a 32-bit `int`, `minCapacity n 1 weights` is the sum
of all weights. -/
theorem minCapacity_single_trip (n : Int) (weights : List Int) (hne : weights ≠ [])
    (hpos : ∀ w ∈ weights, 0 < w) (hsum : weights.sum ≤ 2147483647) :
    minCapacity n 1 weights = some weights.sum :=
  minCapacity_one_trip n weights hne hpos hsum

/-- Instance of `minCapacity_single_trip` on a concrete input. -/
theorem minCapacity_single_trip_witness :
    ([1, 2, 3, 4, 5] : List Int) ≠ [] ∧ (∀ w ∈ ([1, 2, 3, 4, 5] : List Int), 0 < w) ∧
    ([1, 2, 3, 4, 5] : List Int).sum ≤ 2147483647 ∧
    minCapacity 5 1 [1, 2, 3, 4, 5] = some ([1, 2, 3, 4, 5] : List Int).sum :=
  ⟨by decide, by decide, by decide,
    minCapacity_single_trip 5 [1, 2, 3, 4, 5] (by decide) (by decide) (by decide)⟩

/-- C10, failing input: for `n = k = 3` and the positive `int` weights
`[2147483647, 2147483647, 3]` the largest weight is `2147483647`, one item per trip
fits that capacity, and `minCapacity` returns `1`. -/
theorem minCapacity_wraps_with_enough_trips :
    maxElement [2147483647, 2147483647, 3] = some 2147483647 ∧
    canCarry 3 [2147483647, 2147483647, 3] 2147483647 = true ∧
    minCapacity 3 3 [2147483647, 2147483647, 3] = some 1 := by
  decide


/-! ## The states of the binary search -/

theorem searchStep_bounds (k : Int) (weights : List Int) (s : Int × Int)
    (h0 : 0 ≤ s.1) (hlt : s.1 < s.2) :
    s.1 ≤ Int.tdiv (s.1 + s.2) 2 ∧ Int.tdiv (s.1 + s.2) 2 < s.2 ∧
    s.1 ≤ (searchStep k weights s).1 ∧
    (searchStep k weights s).1 ≤ (searchStep k weights s).2 ∧
    (searchStep k weights s).2 ≤ s.2 ∧
    (searchStep k weights s).2 - (searchStep k weights s).1 < s.2 - s.1 := by
  have hmid : Int.tdiv (s.1 + s.2) 2 = (s.1 + s.2) / 2 :=
    Int.tdiv_eq_ediv (by omega) (by omega)
  unfold searchStep
  simp only [hmid]
  by_cases hc : canCarry k weights ((s.1 + s.2) / 2) = true
  · simp only [hc, if_true]
    omega
  · simp only [hc, Bool.false_eq_true, if_false]
    omega

/-- Every state of the loop lies inside the starting range, and after `i` iterations
that did not exit the range has shrunk by at least `i`. -/
theorem searchState_bounds (k : Int) (weights : List Int) (i : Nat) (s : Int × Int)
    (h0 : 0 ≤ s.1) (hle : s.1 ≤ s.2) :
    s.1 ≤ (searchState k weights i s).1 ∧
    (searchState k weights i s).1 ≤ (searchState k weights i s).2 ∧
    (searchState k weights i s).2 ≤ s.2 ∧
    ((searchState k weights i s).1 < (searchState k weights i s).2 →
      (searchState k weights i s).2 - (searchState k weights i s).1 + i ≤ s.2 - s.1) := by
  induction i generalizing s with
  | zero => simp [searchState, hle]
  | succ i ih =>
    unfold searchState
    by_cases hlt : s.1 < s.2
    · simp only [hlt, if_true]
      obtain ⟨_, _, b1, b2, b3, b4⟩ := searchStep_bounds k weights s h0 hlt
      obtain ⟨c1, c2, c3, c4⟩ := ih (searchStep k weights s) (by omega) b2
      refine ⟨by omega, c2, by omega, ?_⟩
      intro h
      have := c4 h
      push_cast
      omega
    · rw [if_neg hlt]
      exact ⟨le_refl _, hle, le_refl _, fun h => absurd h hlt⟩

/-- After `high - low` iterations the loop has exited, with `low == high`. -/
theorem searchState_exit (k : Int) (weights : List Int) (fuel : Nat) (s : Int × Int)
    (h0 : 0 ≤ s.1) (hle : s.1 ≤ s.2) (hfuel : (s.2 - s.1).toNat ≤ fuel) :
    (searchState k weights fuel s).1 = (searchState k weights fuel s).2 := by
  obtain ⟨_, c2, _, c4⟩ := searchState_bounds k weights fuel s h0 hle
  by_cases h : (searchState k weights fuel s).1 < (searchState k weights fuel s).2
  · have := c4 h
    omega
  · omega

/-- The value computed by `searchLoop` is `low` of the state reached with the same
number of iterations, when the loop has exited there. -/
theorem searchLoop_eq_searchState (k : Int) (weights : List Int) (fuel : Nat)
    (low high : Int) :
    searchLoop k weights fuel low high =
      if (searchState k weights fuel (low, high)).1 < (searchState k weights fuel (low, high)).2
      then none else some (searchState k weights fuel (low, high)).1 := by
  induction fuel generalizing low high with
  | zero =>
    unfold searchLoop searchState
    by_cases hlt : low < high <;> simp [hlt]
  | succ fuel ih =>
    unfold searchLoop searchState
    by_cases hlt : low < high
    · simp only [hlt, if_true]
      unfold searchStep
      by_cases hc : canCarry k weights (Int.tdiv (low + high) 2) = true
      · simp only [hc, if_true]
        exact ih _ _
      · simp only [hc, Bool.false_eq_true, if_false]
        exact ih _ _
    · simp [hlt]

/-- The search of `minCapacity` exits with `low == high` and the result is that value
converted to `int`. -/
theorem minCapacity_eq_final_low (n k : Int) (weights : List Int) (hne : weights ≠ [])
    (hpos : ∀ w ∈ weights, 0 < w) :
    ∃ m r, maxElement weights = some m ∧ m ∈ weights ∧ (∀ w ∈ weights, w ≤ m) ∧
      searchState k weights (totalWeight weights - m).toNat (m, totalWeight weights) = (r, r) ∧
      m ≤ r ∧ r ≤ totalWeight weights ∧
      minCapacity n k weights = some (toInt32 r) := by
  obtain ⟨m, hm, hmem, hmax⟩ := maxElement_spec weights hne
  have hnn : ∀ w ∈ weights, 0 ≤ w := fun w hw => le_of_lt (hpos w hw)
  have hmle : m ≤ totalWeight weights := by
    rw [totalWeight_eq_sum]; exact List.single_le_sum hnn m hmem
  have hm0 := hpos m hmem
  have hex := searchState_exit k weights (totalWeight weights - m).toNat
    (m, totalWeight weights) (by simp; omega) hmle (le_refl _)
  obtain ⟨c1, c2, c3, _⟩ := searchState_bounds k weights (totalWeight weights - m).toNat
    (m, totalWeight weights) (by simp; omega) hmle
  refine ⟨m, (searchState k weights (totalWeight weights - m).toNat
    (m, totalWeight weights)).1, hm, hmem, hmax, ?_, c1, ?_, ?_⟩
  · exact Prod.ext rfl hex.symm
  · simp only at c3; omega
  · unfold minCapacity
    rw [hm]
    simp only [searchLoop_eq_searchState, hex, lt_irrefl, if_false, Option.map_some']

theorem searchState_succ (k : Int) (weights : List Int) (j : Nat) (s : Int × Int)
    (h : (searchState k weights j s).1 < (searchState k weights j s).2) :
    searchState k weights (j + 1) s = searchStep k weights (searchState k weights j s) := by
  induction j generalizing s with
  | zero =>
    have h0 : s.1 < s.2 := h
    show (if s.1 < s.2 then searchState k weights 0 (searchStep k weights s) else s) = _
    rw [if_pos h0]
    rfl
  | succ j ih =>
    by_cases hs : s.1 < s.2
    · have eq1 : searchState k weights (j + 1) s =
          searchState k weights j (searchStep k weights s) := by
        show (if s.1 < s.2 then searchState k weights j (searchStep k weights s) else s) = _
        rw [if_pos hs]
      have eq2 : searchState k weights (j + 1 + 1) s =
          searchState k weights (j + 1) (searchStep k weights s) := by
        show (if s.1 < s.2 then searchState k weights (j + 1) (searchStep k weights s)
          else s) = _
        rw [if_pos hs]
      rw [eq1] at h
      rw [eq2, eq1]
      exact ih _ h
    · have eq1 : searchState k weights (j + 1) s = s := by
        show (if s.1 < s.2 then searchState k weights j (searchStep k weights s) else s) = _
        rw [if_neg hs]
      rw [eq1] at h
      exact absurd h hs

/-- While the total is an `int`: `canCarry` accepts `high`, and rejects `low - 1` once
`low` has moved, at every state of the loop. -/
theorem searchState_feasible (k : Int) (weights : List Int) (i : Nat) (s : Int × Int)
    (lo : Int) (h0 : 0 ≤ s.1) (hlt : s.1 ≤ s.2) (hhigh : canCarry k weights s.2 = true)
    (hprev : lo < s.1 → canCarry k weights (s.1 - 1) = false) :
    canCarry k weights (searchState k weights i s).2 = true ∧
    (lo < (searchState k weights i s).1 →
      canCarry k weights ((searchState k weights i s).1 - 1) = false) := by
  induction i generalizing s with
  | zero => exact ⟨hhigh, hprev⟩
  | succ i ih =>
    unfold searchState
    by_cases hl : s.1 < s.2
    · rw [if_pos hl]
      obtain ⟨_, _, b1, b2, _, _⟩ := searchStep_bounds k weights s h0 hl
      apply ih (searchStep k weights s) (by omega) b2
      · unfold searchStep
        by_cases hc : canCarry k weights (Int.tdiv (s.1 + s.2) 2) = true
        · simp only [hc, if_true]
        · simp only [hc, Bool.false_eq_true, if_false]
          exact hhigh
      · unfold searchStep
        by_cases hc : canCarry k weights (Int.tdiv (s.1 + s.2) 2) = true
        · simp only [hc, if_true]
          exact hprev
        · simp only [hc, Bool.false_eq_true, if_false, add_sub_cancel_right]
          intro _
          simp [hc]
    · rw [if_neg hl]
      exact ⟨hhigh, hprev⟩

/-- The loop invariant of `minCapacity` for a total that is an `int`. -/
theorem searchState_invariant (k : Int) (weights : List Int) (hk : 1 ≤ k)
    (hne : weights ≠ []) (hpos : ∀ w ∈ weights, 0 < w) (hsum : weights.sum ≤ 2147483647)
    (i : Nat) :
    ∃ m, maxElement weights = some m ∧
      m ≤ (searchState k weights i (m, totalWeight weights)).1 ∧
      (searchState k weights i (m, totalWeight weights)).1 ≤
        (searchState k weights i (m, totalWeight weights)).2 ∧
      (searchState k weights i (m, totalWeight weights)).2 ≤ totalWeight weights ∧
      canCarry k weights (searchState k weights i (m, totalWeight weights)).2 = true ∧
      (m < (searchState k weights i (m, totalWeight weights)).1 →
        canCarry k weights ((searchState k weights i (m, totalWeight weights)).1 - 1) = false) := by
  obtain ⟨m, hm, hmem, hmax⟩ := maxElement_spec weights hne
  have hnn : ∀ w ∈ weights, 0 ≤ w := fun w hw => le_of_lt (hpos w hw)
  have hmle : m ≤ totalWeight weights := by
    rw [totalWeight_eq_sum]; exact List.single_le_sum hnn m hmem
  have hm0 := hpos m hmem
  obtain ⟨c1, c2, c3, _⟩ := searchState_bounds k weights i (m, totalWeight weights)
    (by simp; omega) hmle
  obtain ⟨d1, d2⟩ := searchState_feasible k weights i (m, totalWeight weights) m
    (by simp; omega) hmle
    (by
      simp only [totalWeight_eq_sum]
      exact canCarry_of_total_le k weights weights.sum hk hnn (le_refl _) hsum)
    (fun h => absurd h (lt_irrefl _))
  exact ⟨m, hm, c1, c2, c3, d1, d2⟩

/-! ## A step of a trip, for a `remaining` that is an `int` -/

theorem upperBound_eq_zero_iff (key : Int) (goats : List Int)
    (hs : List.Sorted (· ≤ ·) goats) :
    upperBound key goats = 0 ↔ ∀ w ∈ goats, key < w := by
  cases goats with
  | nil => simp [upperBound]
  | cons w goats =>
    have hs2 := List.pairwise_cons.mp hs
    unfold upperBound
    by_cases hk : key < w
    · simp only [hk, if_true, true_iff]
      intro x hx
      rcases List.mem_cons.mp hx with rfl | hx
      · exact hk
      · have := hs2.1 x hx
        omega
    · simp only [hk, if_false]
      constructor
      · intro h; omega
      · intro h
        exact absurd (h w (by simp)) hk

/-- The element before `upper_bound(key)` is the largest element `≤ key`. -/
theorem le_getD_pred_upperBound (key : Int) (goats : List Int)
    (hs : List.Sorted (· ≤ ·) goats) (hpos : 0 < upperBound key goats) :
    ∀ w ∈ goats, w ≤ key → w ≤ goats.getD (upperBound key goats - 1) 0 := by
  induction goats with
  | nil => simp [upperBound] at hpos
  | cons a goats ih =>
    have hs2 := List.pairwise_cons.mp hs
    unfold upperBound at hpos ⊢
    by_cases hk : key < a
    · simp [hk] at hpos
    · simp only [hk, if_false, Nat.add_sub_cancel]
      intro w hw hwk
      by_cases hz : upperBound key goats = 0
      · rw [hz, List.getD_cons_zero]
        rcases List.mem_cons.mp hw with rfl | hw
        · exact le_refl _
        · have := (upperBound_eq_zero_iff key goats hs2.2).mp hz w hw
          omega
      · obtain ⟨j, hj⟩ : ∃ j, upperBound key goats = j + 1 :=
          ⟨upperBound key goats - 1, by omega⟩
        have hlen := upperBound_le_length key goats
        rw [hj, List.getD_cons_succ]
        rcases List.mem_cons.mp hw with rfl | hw
        · exact hs2.1 _ (getD_mem goats j (by omega))
        · have := ih hs2.2 (by omega) w hw hwk
          rwa [hj, Nat.add_sub_cancel] at this

/-- One iteration of the inner loop, for a sorted working set and a `remaining` that
is an `int`: the trip ends exactly when no weight is `≤ remaining`; otherwise the
iteration erases one occurrence of the largest weight `≤ remaining` and the new
`remaining` is not negative. -/
theorem tripLoop_step (fuel : Nat) (remaining : Int) (goats : List Int)
    (hs : List.Sorted (· ≤ ·) goats)
    (hmin : -2147483648 ≤ remaining) (hmax : remaining ≤ 2147483647) :
    ((∀ w ∈ goats, remaining < w) → tripLoop (fuel + 1) remaining goats = goats) ∧
    ((∃ w ∈ goats, w ≤ remaining) →
      ∃ pick rest, pick ∈ goats ∧ pick ≤ remaining ∧ (∀ w ∈ goats, w ≤ remaining → w ≤ pick) ∧
        List.Perm (pick :: rest) goats ∧ List.Sorted (· ≤ ·) rest ∧
        tripLoop (fuel + 1) remaining goats = tripLoop fuel (remaining - pick) rest) := by
  have hconv := toInt32_of_inRange remaining hmin hmax
  constructor
  · intro h
    unfold tripLoop
    rw [hconv, (upperBound_eq_zero_iff remaining goats hs).mpr h]
    simp
  · rintro ⟨w, hw, hwr⟩
    have hz : ¬ upperBound remaining goats = 0 := by
      intro hz
      have := (upperBound_eq_zero_iff remaining goats hs).mp hz w hw
      omega
    have hne : goats.isEmpty = false := by
      cases goats with
      | nil => simp at hw
      | cons a l => rfl
    have hlen := upperBound_le_length remaining goats
    refine ⟨goats.getD (upperBound remaining goats - 1) 0,
      goats.eraseIdx (upperBound remaining goats - 1),
      getD_mem goats _ (by omega),
      getD_le_of_lt_upperBound remaining goats _ (by omega),
      le_getD_pred_upperBound remaining goats hs (by omega),
      perm_getD_eraseIdx goats _ (by omega),
      List.Pairwise.sublist (List.eraseIdx_sublist goats _) hs, ?_⟩
    rw [tripLoop]
    simp only [hne, Bool.false_eq_true, if_false, hconv, hz]

/-! ## Size of the sums, permutations of the input, one more trip -/

theorem sum_le_length_mul (weights : List Int) (b : Int) (h : ∀ w ∈ weights, w ≤ b) :
    weights.sum ≤ weights.length * b := by
  induction weights with
  | nil => simp
  | cons w weights ih =>
    have h1 := h w (by simp)
    have h2 := ih (fun x hx => h x (List.mem_cons_of_mem _ hx))
    have h3 : (((w :: weights).length : Nat) : Int) * b = weights.length * b + b := by
      simp only [List.length_cons]; push_cast; ring
    rw [h3, List.sum_cons]
    omega

theorem mkGoats_eq_of_perm (ws1 ws2 : List Int) (h : List.Perm ws1 ws2) :
    mkGoats ws1 = mkGoats ws2 :=
  List.eq_of_perm_of_sorted
    (((mkGoats_perm ws1).trans h).trans (mkGoats_perm ws2).symm)
    (mkGoats_sorted ws1) (mkGoats_sorted ws2)

theorem canCarry_eq_of_perm (k : Int) (ws1 ws2 : List Int) (cap : Int)
    (h : List.Perm ws1 ws2) : canCarry k ws1 cap = canCarry k ws2 cap := by
  unfold canCarry
  rw [mkGoats_eq_of_perm ws1 ws2 h]

theorem maxElement_eq_of_perm (ws1 ws2 : List Int) (h : List.Perm ws1 ws2) :
    maxElement ws1 = maxElement ws2 := by
  by_cases hne : ws1 = []
  · subst hne
    rw [← h.nil_eq]
  · have hne2 : ws2 ≠ [] := fun h2 => hne (by subst h2; exact h.eq_nil)
    obtain ⟨m1, e1, hm1, hx1⟩ := maxElement_spec ws1 hne
    obtain ⟨m2, e2, hm2, hx2⟩ := maxElement_spec ws2 hne2
    have a1 := hx2 m1 (h.mem_iff.mp hm1)
    have a2 := hx1 m2 (h.mem_iff.mpr hm2)
    rw [e1, e2, le_antisymm a1 a2]

theorem searchLoop_congr (k : Int) (ws1 ws2 : List Int)
    (h : ∀ cap, canCarry k ws1 cap = canCarry k ws2 cap) (fuel : Nat) (low high : Int) :
    searchLoop k ws1 fuel low high = searchLoop k ws2 fuel low high := by
  induction fuel generalizing low high with
  | zero => unfold searchLoop; rfl
  | succ fuel ih =>
    rw [searchLoop, searchLoop]
    simp only [h, ih]

theorem minCapacity_eq_of_perm (n k : Int) (ws1 ws2 : List Int) (h : List.Perm ws1 ws2) :
    minCapacity n k ws1 = minCapacity n k ws2 := by
  unfold minCapacity
  rw [maxElement_eq_of_perm ws1 ws2 h]
  simp only [totalWeight_eq_sum, h.sum_eq,
    searchLoop_congr k ws1 ws2 (fun cap => canCarry_eq_of_perm k ws1 ws2 cap h)]

theorem tripsLoop_succ_nil (cap : Int) (trips : Nat) (goats : List Int)
    (h : tripsLoop cap trips goats = []) : tripsLoop cap (trips + 1) goats = [] := by
  induction trips generalizing goats with
  | zero =>
    have : goats = [] := by simpa [tripsLoop] using h
    subst this
    exact tripsLoop_nil cap 1
  | succ trips ih =>
    rw [tripsLoop] at h ⊢
    by_cases he : goats.isEmpty
    · rw [if_pos he] at h ⊢
      exact h
    · rw [if_neg he] at h ⊢
      exact ih _ h

theorem canCarry_succ_trips (k : Int) (weights : List Int) (cap : Int)
    (h : canCarry k weights cap = true) : canCarry (k + 1) weights cap = true := by
  unfold canCarry at h ⊢
  rw [List.isEmpty_iff] at h ⊢
  by_cases hk : 0 ≤ k
  · have : (k + 1).toNat = k.toNat + 1 := by omega
    rw [this]
    exact tripsLoop_succ_nil cap _ _ h
  · have h1 : k.toNat = 0 := by omega
    have h2 : (k + 1).toNat = 0 := by omega
    rw [h1] at h
    rw [h2]
    exact h

/-! ## The states of a trip -/

theorem tripStep_length (s : Int × List Int) (h : tripContinues s = true) :
    (tripStep s).2.length + 1 = s.2.length := by
  unfold tripContinues at h
  simp only [Bool.and_eq_true, Bool.not_eq_true', bne_iff_ne, ne_eq] at h
  have := upperBound_le_length (toInt32 s.1) s.2
  unfold tripStep
  exact length_eraseIdx_of_lt s.2 _ (by omega)

/-- The value computed by `tripLoop` is the working set of the state reached by the
inner loop with the same number of iterations. -/
theorem tripLoop_eq_tripState (fuel : Nat) (remaining : Int) (goats : List Int) :
    tripLoop fuel remaining goats = (tripState fuel (remaining, goats)).2 := by
  induction fuel generalizing remaining goats with
  | zero => rfl
  | succ fuel ih =>
    unfold tripLoop tripState tripContinues
    by_cases he : goats.isEmpty
    · simp [he]
    · by_cases hz : upperBound (toInt32 remaining) goats = 0
      · simp [he, hz]
      · simp only [he, hz, Bool.false_eq_true, if_false, Bool.not_false, Bool.true_and,
          bne_iff_ne, ne_eq, not_false_eq_true, decide_True, if_true]
        rw [ih]
        rfl

/-- After `i` iterations that did not leave the loop, `i` weights have been removed. -/
theorem tripState_length (i : Nat) (s : Int × List Int)
    (h : tripContinues (tripState i s) = true) :
    (tripState i s).2.length + i ≤ s.2.length := by
  induction i generalizing s with
  | zero => exact le_refl _
  | succ i ih =>
    rw [tripState] at h ⊢
    by_cases hc : tripContinues s = true
    · rw [if_pos hc] at h ⊢
      have := ih (tripStep s) h
      have := tripStep_length s hc
      omega
    · rw [if_neg hc] at h
      exact absurd h hc

/-- The inner loop is left within as many iterations as there are weights. -/
theorem tripState_exit (s : Int × List Int) :
    tripContinues (tripState s.2.length s) = false := by
  cases hc : tripContinues (tripState s.2.length s) with
  | false => rfl
  | true =>
    have hlen := tripState_length s.2.length s hc
    have hnil : (tripState s.2.length s).2 = [] := List.length_eq_zero.mp (by omega)
    unfold tripContinues at hc
    rw [hnil] at hc
    simp at hc

theorem tripState_succ (i : Nat) (s : Int × List Int)
    (h : tripContinues (tripState i s) = true) :
    tripState (i + 1) s = tripStep (tripState i s) := by
  induction i generalizing s with
  | zero =>
    have h0 : tripContinues s = true := h
    show (if tripContinues s then tripState 0 (tripStep s) else s) = _
    rw [if_pos h0]
    rfl
  | succ i ih =>
    by_cases hs : tripContinues s = true
    · have eq1 : tripState (i + 1) s = tripState i (tripStep s) := by
        show (if tripContinues s then tripState i (tripStep s) else s) = _
        rw [if_pos hs]
      have eq2 : tripState (i + 1 + 1) s = tripState (i + 1) (tripStep s) := by
        show (if tripContinues s then tripState (i + 1) (tripStep s) else s) = _
        rw [if_pos hs]
      rw [eq1] at h
      rw [eq2, eq1]
      exact ih _ h
    · have eq1 : tripState (i + 1) s = s := by
        show (if tripContinues s then tripState i (tripStep s) else s) = _
        rw [if_neg hs]
      rw [eq1] at h
      exact absurd h hs

/-! ## The claims about termination, arithmetic width and invariance -/

/-- C11: `minCapacity` terminates for every `k` and every non-empty list of positive
weights: at every state of the `while` loop that runs an iteration the midpoint
satisfies `low ≤ mid < high` and the iteration strictly decreases `high - low`; the
loop exits, within `high - low` iterations, at a state with `low == high`, whose value
converted to `int` is returned; and every trip of `canCarry` terminates: what the trip
leaves is the working set of the state its inner loop has after as many iterations as
there were weights, the loop has been left in that state (the set is empty or
`upper_bound` returned `begin()`), and every iteration that runs removes one weight. -/
theorem minCapacity_terminates (n k : Int) (weights : List Int) (hne : weights ≠ [])
    (hpos : ∀ w ∈ weights, 0 < w) :
    ∃ m r, maxElement weights = some m ∧
      (∀ i, (searchState k weights i (m, totalWeight weights)).1 <
          (searchState k weights i (m, totalWeight weights)).2 →
        (searchState k weights i (m, totalWeight weights)).1 ≤
          Int.tdiv ((searchState k weights i (m, totalWeight weights)).1 +
            (searchState k weights i (m, totalWeight weights)).2) 2 ∧
        Int.tdiv ((searchState k weights i (m, totalWeight weights)).1 +
            (searchState k weights i (m, totalWeight weights)).2) 2 <
          (searchState k weights i (m, totalWeight weights)).2 ∧
        (searchState k weights (i + 1) (m, totalWeight weights)).2 -
            (searchState k weights (i + 1) (m, totalWeight weights)).1 <
          (searchState k weights i (m, totalWeight weights)).2 -
            (searchState k weights i (m, totalWeight weights)).1) ∧
      searchState k weights (totalWeight weights - m).toNat (m, totalWeight weights) = (r, r) ∧
      minCapacity n k weights = some (toInt32 r) ∧
      (∀ cap goats,
        trip cap goats = (tripState goats.length (cap, goats)).2 ∧
        tripContinues (tripState goats.length (cap, goats)) = false ∧
        (∀ i, tripContinues (tripState i (cap, goats)) = true →
          (tripState (i + 1) (cap, goats)).2.length + 1 =
            (tripState i (cap, goats)).2.length) ∧
        ∀ fuel, goats.length ≤ fuel → tripLoop fuel cap goats = trip cap goats) := by
  obtain ⟨m, r, hm, hmem, hmax, hfin, hmr, hrt, hres⟩ :=
    minCapacity_eq_final_low n k weights hne hpos
  have hm0 := hpos m hmem
  have hmle : m ≤ totalWeight weights := le_trans hmr hrt
  refine ⟨m, r, hm, ?_, hfin, hres, ?_⟩
  · intro i hlt
    obtain ⟨c1, _, _, _⟩ := searchState_bounds k weights i (m, totalWeight weights)
      (by simp; omega) hmle
    have hstep := searchStep_bounds k weights (searchState k weights i (m, totalWeight weights))
      (by simp only at c1; omega) hlt
    refine ⟨hstep.1, hstep.2.1, ?_⟩
    rw [searchState_succ k weights i _ hlt]
    exact hstep.2.2.2.2.2
  · intro cap goats
    refine ⟨tripLoop_eq_tripState goats.length cap goats, tripState_exit (cap, goats), ?_, ?_⟩
    · intro i hi
      rw [tripState_succ i (cap, goats) hi]
      exact tripStep_length _ hi
    · intro fuel hfuel
      exact tripLoop_fuel fuel goats.length cap goats hfuel (le_refl _)

/-- Instance of `minCapacity_terminates` on a concrete input. -/
theorem minCapacity_terminates_witness :
    ([1, 2, 3] : List Int) ≠ [] ∧ (∀ w ∈ ([1, 2, 3] : List Int), 0 < w) ∧
    ∃ m r, maxElement [1, 2, 3] = some m ∧
      (∀ i, (searchState 2 [1, 2, 3] i (m, totalWeight [1, 2, 3])).1 <
          (searchState 2 [1, 2, 3] i (m, totalWeight [1, 2, 3])).2 →
        (searchState 2 [1, 2, 3] i (m, totalWeight [1, 2, 3])).1 ≤
          Int.tdiv ((searchState 2 [1, 2, 3] i (m, totalWeight [1, 2, 3])).1 +
            (searchState 2 [1, 2, 3] i (m, totalWeight [1, 2, 3])).2) 2 ∧
        Int.tdiv ((searchState 2 [1, 2, 3] i (m, totalWeight [1, 2, 3])).1 +
            (searchState 2 [1, 2, 3] i (m, totalWeight [1, 2, 3])).2) 2 <
          (searchState 2 [1, 2, 3] i (m, totalWeight [1, 2, 3])).2 ∧
        (searchState 2 [1, 2, 3] (i + 1) (m, totalWeight [1, 2, 3])).2 -
            (searchState 2 [1, 2, 3] (i + 1) (m, totalWeight [1, 2, 3])).1 <
          (searchState 2 [1, 2, 3] i (m, totalWeight [1, 2, 3])).2 -
            (searchState 2 [1, 2, 3] i (m, totalWeight [1, 2, 3])).1) ∧
      searchState 2 [1, 2, 3] (totalWeight [1, 2, 3] - m).toNat (m, totalWeight [1, 2, 3])
        = (r, r) ∧
      minCapacity 3 2 [1, 2, 3] = some (toInt32 r) ∧
      (∀ cap goats,
        trip cap goats = (tripState goats.length (cap, goats)).2 ∧
        tripContinues (tripState goats.length (cap, goats)) = false ∧
        (∀ i, tripContinues (tripState i (cap, goats)) = true →
          (tripState (i + 1) (cap, goats)).2.length + 1 =
            (tripState i (cap, goats)).2.length) ∧
        ∀ fuel, goats.length ≤ fuel → tripLoop fuel cap goats = trip cap goats) :=
  ⟨by decide, by decide, minCapacity_terminates 3 2 [1, 2, 3] (by decide) (by decide)⟩

/-- C12, failing input: for `n = 2`, `k = 1` and the positive `int` weights
`[2147483647, 1]` the total is `2147483648`, the search ends with
`low == high == 2147483648`, the exact total, and `minCapacity` returns
`(int)low = -2147483648`. -/
theorem minCapacity_truncates_wide_total :
    maxElement [2147483647, 1] = some 2147483647 ∧
    totalWeight [2147483647, 1] = 2147483648 ∧
    searchState 1 [2147483647, 1] (2147483648 - 2147483647 : Int).toNat
      (2147483647, 2147483648) = (2147483648, 2147483648) ∧
    minCapacity 2 1 [2147483647, 1] = some (-2147483648) := by
  decide

/-- C13, failing input: for `k = 1` and the positive `int` weights `[2147483647, 1]`
the loop is entered in the state `low = 2147483647`, `high = 2147483648`, and
`canCarry` rejects that `high`. -/
theorem searchState_invariant_fails_wide_total :
    maxElement [2147483647, 1] = some 2147483647 ∧
    searchState 1 [2147483647, 1] 0 (2147483647, totalWeight [2147483647, 1]) =
      (2147483647, 2147483648) ∧
    canCarry 1 [2147483647, 1]
      (searchState 1 [2147483647, 1] 0 (2147483647, totalWeight [2147483647, 1])).2 = false := by
  decide

/-- C14, failing input: for `k = 3` and the positive `int` weights
`[2147483647, 2147483647, 3]` the first capacity `minCapacity` probes is `3221225472`.
The first step of the first trip starts with `remaining = 3221225472`, every weight is
`≤ remaining`, yet `upper_bound` returns `begin()` and the trip ends with nothing
removed. -/
theorem trip_ends_despite_fitting_weights :
    Int.tdiv (2147483647 + totalWeight [2147483647, 2147483647, 3]) 2 = 3221225472 ∧
    mkGoats [2147483647, 2147483647, 3] = [3, 2147483647, 2147483647] ∧
    (∀ w ∈ mkGoats [2147483647, 2147483647, 3], w ≤ 3221225472) ∧
    upperBound (toInt32 3221225472) (mkGoats [2147483647, 2147483647, 3]) = 0 ∧
    trip 3221225472 (mkGoats [2147483647, 2147483647, 3]) =
      mkGoats [2147483647, 2147483647, 3] := by
  decide

/-- C15: for every non-empty list of positive 32-bit weights of `int`-representable
length (and every `k`), at every state `(low, high)` of the `while` loop the midpoint
`(low + high) / 2` the code computes equals `low + (high - low) / 2`, and `low + high`
lies inside the signed 64-bit range. -/
theorem midpoint_exact_no_overflow (k : Int) (weights : List Int) (hne : weights ≠ [])
    (hint : ∀ w ∈ weights, 0 < w ∧ w ≤ 2147483647) (hlen : weights.length ≤ 2147483647) :
    ∃ m, maxElement weights = some m ∧ ∀ i,
      Int.tdiv ((searchState k weights i (m, totalWeight weights)).1 +
          (searchState k weights i (m, totalWeight weights)).2) 2 =
        (searchState k weights i (m, totalWeight weights)).1 +
          Int.tdiv ((searchState k weights i (m, totalWeight weights)).2 -
            (searchState k weights i (m, totalWeight weights)).1) 2 ∧
      -9223372036854775808 ≤ (searchState k weights i (m, totalWeight weights)).1 +
        (searchState k weights i (m, totalWeight weights)).2 ∧
      (searchState k weights i (m, totalWeight weights)).1 +
        (searchState k weights i (m, totalWeight weights)).2 ≤ 9223372036854775807 := by
  obtain ⟨m, hm, hmem, hmax⟩ := maxElement_spec weights hne
  have hnn : ∀ w ∈ weights, 0 ≤ w := fun w hw => le_of_lt (hint w hw).1
  have hmle : m ≤ totalWeight weights := by
    rw [totalWeight_eq_sum]; exact List.single_le_sum hnn m hmem
  have hm0 := (hint m hmem).1
  have htot : totalWeight weights ≤ weights.length * 2147483647 := by
    rw [totalWeight_eq_sum]
    exact sum_le_length_mul weights 2147483647 (fun w hw => (hint w hw).2)
  refine ⟨m, hm, fun i => ?_⟩
  obtain ⟨c1, c2, c3, _⟩ := searchState_bounds k weights i (m, totalWeight weights)
    (by simp; omega) hmle
  simp only at c1 c3
  have e1 : Int.tdiv ((searchState k weights i (m, totalWeight weights)).1 +
      (searchState k weights i (m, totalWeight weights)).2) 2 =
      ((searchState k weights i (m, totalWeight weights)).1 +
      (searchState k weights i (m, totalWeight weights)).2) / 2 :=
    Int.tdiv_eq_ediv (by omega) (by omega)
  have e2 : Int.tdiv ((searchState k weights i (m, totalWeight weights)).2 -
      (searchState k weights i (m, totalWeight weights)).1) 2 =
      ((searchState k weights i (m, totalWeight weights)).2 -
      (searchState k weights i (m, totalWeight weights)).1) / 2 :=
    Int.tdiv_eq_ediv (by omega) (by omega)
  rw [e1, e2]
  refine ⟨by omega, by omega, by omega⟩

/-- Instance of `midpoint_exact_no_overflow` on a concrete input. -/
theorem midpoint_exact_no_overflow_witness :
    ([1, 2, 3] : List Int) ≠ [] ∧ (∀ w ∈ ([1, 2, 3] : List Int), 0 < w ∧ w ≤ 2147483647) ∧
    ([1, 2, 3] : List Int).length ≤ 2147483647 ∧
    ∃ m, maxElement [1, 2, 3] = some m ∧ ∀ i,
      Int.tdiv ((searchState 2 [1, 2, 3] i (m, totalWeight [1, 2, 3])).1 +
          (searchState 2 [1, 2, 3] i (m, totalWeight [1, 2, 3])).2) 2 =
        (searchState 2 [1, 2, 3] i (m, totalWeight [1, 2, 3])).1 +
          Int.tdiv ((searchState 2 [1, 2, 3] i (m, totalWeight [1, 2, 3])).2 -
            (searchState 2 [1, 2, 3] i (m, totalWeight [1, 2, 3])).1) 2 ∧
      -9223372036854775808 ≤ (searchState 2 [1, 2, 3] i (m, totalWeight [1, 2, 3])).1 +
        (searchState 2 [1, 2, 3] i (m, totalWeight [1, 2, 3])).2 ∧
      (searchState 2 [1, 2, 3] i (m, totalWeight [1, 2, 3])).1 +
        (searchState 2 [1, 2, 3] i (m, totalWeight [1, 2, 3])).2 ≤ 9223372036854775807 :=
  ⟨by decide, by decide, by decide,
    midpoint_exact_no_overflow 2 [1, 2, 3] (by decide) (by decide) (by decide)⟩

/-- C16: `canCarry` and `minCapacity` depend only on the multiset of weights: for every
`n`, `k`, `cap` and any two weight lists that are permutations of each other,
`canCarry` returns the same boolean and `minCapacity` the same result. -/
theorem canCarry_minCapacity_perm (n k cap : Int) (ws1 ws2 : List Int)
    (h : List.Perm ws1 ws2) :
    canCarry k ws1 cap = canCarry k ws2 cap ∧ minCapacity n k ws1 = minCapacity n k ws2 :=
  ⟨canCarry_eq_of_perm k ws1 ws2 cap h, minCapacity_eq_of_perm n k ws1 ws2 h⟩

/-- Instance of `canCarry_minCapacity_perm` on a concrete input. -/
theorem canCarry_minCapacity_perm_witness :
    List.Perm ([1, 2, 3] : List Int) [3, 1, 2] ∧
    canCarry 2 [1, 2, 3] 3 = canCarry 2 [3, 1, 2] 3 ∧
    minCapacity 3 2 [1, 2, 3] = minCapacity 3 2 [3, 1, 2] :=
  ⟨by decide, canCarry_minCapacity_perm 3 2 3 [1, 2, 3] [3, 1, 2] (by decide)⟩

/-- C17: `canCarry` is monotone in the trip count: for every `k`, `cap` and list of
weights, if `canCarry k weights cap` is `true` then `canCarry (k + 1) weights cap` is
`true`. -/
theorem canCarry_monotone_trips (k : Int) (weights : List Int) (cap : Int)
    (h : canCarry k weights cap = true) : canCarry (k + 1) weights cap = true :=
  canCarry_succ_trips k weights cap h

/-- Instance of `canCarry_monotone_trips` on a concrete input. -/
theorem canCarry_monotone_trips_witness :
    canCarry 2 [1, 2, 3] 3 = true ∧ canCarry (2 + 1) [1, 2, 3] 3 = true :=
  ⟨by decide, canCarry_monotone_trips 2 [1, 2, 3] 3 (by decide)⟩

end Raft

namespace Oranges

/-! ## The ordered set -/

theorem pairLt_iff (a b : Int × Int) :
    pairLt a b = true ↔ a.1 < b.1 ∨ (a.1 = b.1 ∧ a.2 < b.2) := by
  simp [pairLt]

theorem eq_of_not_pairLt (a b : Int × Int) (h1 : ¬ pairLt a b = true)
    (h2 : ¬ pairLt b a = true) : a = b := by
  rw [pairLt_iff] at h1 h2
  apply Prod.ext <;> omega

theorem pairLt_trans (a b c : Int × Int) (h1 : pairLt a b = true) (h2 : pairLt b c = true) :
    pairLt a c = true := by
  rw [pairLt_iff] at h1 h2 ⊢
  omega

theorem mem_setInsert (c x : Int × Int) (s : List (Int × Int)) :
    x ∈ setInsert c s ↔ x = c ∨ x ∈ s := by
  induction s with
  | nil => simp [setInsert]
  | cons d s ih =>
    unfold setInsert
    by_cases h1 : pairLt c d = true
    · rw [if_pos h1]; simp
    · rw [if_neg h1]
      by_cases h2 : pairLt d c = true
      · rw [if_pos h2]
        simp only [List.mem_cons, ih]
        tauto
      · rw [if_neg h2]
        have := eq_of_not_pairLt c d h1 h2
        subst this
        simp

theorem sorted_setInsert (c : Int × Int) (s : List (Int × Int))
    (hs : List.Pairwise (fun a b => pairLt a b = true) s) :
    List.Pairwise (fun a b => pairLt a b = true) (setInsert c s) := by
  induction s with
  | nil => simp [setInsert]
  | cons d s ih =>
    have hs2 := List.pairwise_cons.mp hs
    unfold setInsert
    by_cases h1 : pairLt c d = true
    · rw [if_pos h1]
      refine List.pairwise_cons.mpr ⟨?_, hs⟩
      intro x hx
      rcases List.mem_cons.mp hx with rfl | hx
      · exact h1
      · exact pairLt_trans c d x h1 (hs2.1 x hx)
    · rw [if_neg h1]
      by_cases h2 : pairLt d c = true
      · rw [if_pos h2]
        refine List.pairwise_cons.mpr ⟨?_, ih hs2.2⟩
        intro x hx
        rcases (mem_setInsert c x s).mp hx with rfl | hx
        · exact h2
        · exact hs2.1 x hx
      · rw [if_neg h2]
        exact hs

theorem nodup_of_sorted (s : List (Int × Int))
    (hs : List.Pairwise (fun a b => pairLt a b = true) s) : s.Nodup := by
  refine List.Pairwise.imp ?_ hs
  intro a b hab heq
  subst heq
  rw [pairLt_iff] at hab
  omega

theorem mem_foldl_setInsert (newly s : List (Int × Int)) (x : Int × Int) :
    x ∈ newly.foldl (fun spoiled c => setInsert c spoiled) s ↔ x ∈ s ∨ x ∈ newly := by
  induction newly generalizing s with
  | nil => simp
  | cons c newly ih =>
    simp only [List.foldl_cons, ih, mem_setInsert, List.mem_cons]
    tauto

theorem sorted_foldl_setInsert (newly s : List (Int × Int))
    (hs : List.Pairwise (fun a b => pairLt a b = true) s) :
    List.Pairwise (fun a b => pairLt a b = true)
      (newly.foldl (fun spoiled c => setInsert c spoiled) s) := by
  induction newly generalizing s with
  | nil => simpa using hs
  | cons c newly ih =>
    simp only [List.foldl_cons]
    exact ih _ (sorted_setInsert c s hs)

/-! ## Loops as folds -/

theorem foldl_preserves {α β : Type} (f : β → α → β) (P : β → Prop) (l : List α)
    (h : ∀ s a, a ∈ l → P s → P (f s a)) (s : β) (hs : P s) : P (l.foldl f s) := by
  induction l generalizing s with
  | nil => simpa using hs
  | cons a l ih =>
    simp only [List.foldl_cons]
    exact ih (fun s b hb => h s b (List.mem_cons_of_mem _ hb)) _ (h s a (by simp) hs)

theorem foldl_establishes {α β : Type} (f : β → α → β) (P : β → Prop) (a : α)
    (l : List α) (hest : ∀ s, P (f s a)) (hpres : ∀ s b, P s → P (f s b))
    (s : β) (ha : a ∈ l) : P (l.foldl f s) := by
  induction l generalizing s with
  | nil => simp at ha
  | cons b l ih =>
    simp only [List.foldl_cons]
    rcases List.mem_cons.mp ha with rfl | ha
    · exact foldl_preserves f P l (fun s b _ hs => hpres s b hs) _ (hest s)
    · exact ih _ ha

/-! ## One round -/

theorem visit_keeps_false (K L : Int) (c : Int × Int)
    (st : (Int → Int → Bool) × List (Int × Int)) (dir : Int × Int) (a b : Int)
    (h : st.1 a b = false) : (visit K L c st dir).1 a b = false := by
  unfold visit
  simp only
  split
  · simp only [markSpoiled]
    split
    · rfl
    · exact h
  · exact h

theorem visit_marks (K L : Int) (c : Int × Int)
    (st : (Int → Int → Bool) × List (Int × Int)) (dir : Int × Int)
    (hin : InGrid K L (c.1 + dir.1, c.2 + dir.2)) :
    (visit K L c st dir).1 (c.1 + dir.1) (c.2 + dir.2) = false := by
  unfold visit
  simp only
  split
  · simp [markSpoiled]
  · rename_i hcond
    obtain ⟨h1, h2, h3, h4⟩ := hin
    simp only at h1 h2 h3 h4
    have : ¬ st.1 (c.1 + dir.1) (c.2 + dir.2) = true := fun ht =>
      hcond ⟨h1, h2, h3, h4, ht⟩
    simpa using this

theorem visit_roundInv (K L : Int) (spoiled : List (Int × Int)) (c : Int × Int)
    (hc : c ∈ spoiled) (dir : Int × Int) (hd : dir ∈ directions)
    (acc : (Int → Int → Bool) × List (Int × Int)) (h : RoundInv K L spoiled acc) :
    RoundInv K L spoiled (visit K L c acc dir) := by
  obtain ⟨h1, h2, h3⟩ := h
  unfold visit
  simp only
  split
  · rename_i hcond
    refine ⟨?_, sorted_setInsert _ _ h2, ?_⟩
    · intro x y
      simp only [markSpoiled, mem_setInsert, Prod.mk.injEq]
      by_cases hxy : x = c.1 + dir.1 ∧ y = c.2 + dir.2
      · simp [hxy]
      · simp only [hxy, if_false, false_or]
        exact h1 x y
    · intro n hn
      rcases (mem_setInsert _ _ _).mp hn with rfl | hn
      · exact ⟨⟨hcond.1, hcond.2.1, hcond.2.2.1, hcond.2.2.2.1⟩, c, hc, dir, hd, rfl⟩
      · exact h3 n hn
  · exact ⟨h1, h2, h3⟩

/-- What a round does to a consistent state: it stays consistent, and `spoiled` gains
exactly the cells of the grid that are one step from a cell of `spoiled`. -/
theorem round_spec (K L : Int) (st : (Int → Int → Bool) × List (Int × Int))
    (h : StateInv K L st) :
    StateInv K L (round K L st) ∧
    ∀ n, n ∈ (round K L st).2 ↔ n ∈ st.2 ∨ (InGrid K L n ∧ ∃ c ∈ st.2, Step c n) := by
  obtain ⟨h1, h2, h3⟩ := h
  have hinv : RoundInv K L st.2
      (st.2.foldl (fun acc c => directions.foldl (visit K L c) acc) (st.1, [])) := by
    apply foldl_preserves (fun acc c => directions.foldl (visit K L c) acc)
      (RoundInv K L st.2) st.2
    · intro s c hc hs
      exact foldl_preserves (visit K L c) (RoundInv K L st.2) directions
        (fun s d hd hs => visit_roundInv K L st.2 c hc d hd s hs) s hs
    · exact ⟨fun x y => by simpa using h1 x y, List.Pairwise.nil, by simp⟩
  have hcomplete : ∀ c ∈ st.2, ∀ d ∈ directions, InGrid K L (c.1 + d.1, c.2 + d.2) →
      (st.2.foldl (fun acc c => directions.foldl (visit K L c) acc) (st.1, [])).1
        (c.1 + d.1) (c.2 + d.2) = false := by
    intro c hc d hd hin
    apply foldl_establishes (fun acc c => directions.foldl (visit K L c) acc)
      (fun acc => acc.1 (c.1 + d.1) (c.2 + d.2) = false) c st.2
    · intro s
      exact foldl_establishes (visit K L c)
        (fun acc => acc.1 (c.1 + d.1) (c.2 + d.2) = false) d directions
        (fun s => visit_marks K L c s d hin)
        (fun s b hs => visit_keeps_false K L c s b _ _ hs) s hd
    · intro s b hs
      exact foldl_preserves (visit K L b)
        (fun acc => acc.1 (c.1 + d.1) (c.2 + d.2) = false) directions
        (fun s d2 _ hs => visit_keeps_false K L b s d2 _ _ hs) s hs
    · exact hc
  obtain ⟨j1, j2, j3⟩ := hinv
  unfold round
  simp only
  refine ⟨⟨?_, sorted_foldl_setInsert _ _ h2, ?_⟩, ?_⟩
  · intro x y
    rw [mem_foldl_setInsert]
    exact j1 x y
  · intro c hc
    rcases (mem_foldl_setInsert _ _ _).mp hc with hc | hc
    · exact h3 c hc
    · exact (j3 c hc).1
  · intro n
    rw [mem_foldl_setInsert]
    constructor
    · rintro (hn | hn)
      · exact Or.inl hn
      · exact Or.inr (j3 n hn)
    · rintro (hn | ⟨hin, c, hc, d, hd, rfl⟩)
      · exact Or.inl hn
      · exact (j1 _ _).mp (hcomplete c hc d hd hin)

/-! ## Rounds and Manhattan distance -/

theorem manhattan_step_le (c n s : Int × Int) (h : Step c n) :
    manhattan n s ≤ manhattan c s + 1 := by
  obtain ⟨d, hd, rfl⟩ := h
  simp only [directions, List.mem_cons, List.mem_singleton, List.not_mem_nil, or_false] at hd
  unfold manhattan
  rcases hd with rfl | rfl | rfl | rfl <;> simp only <;> omega

theorem exists_step_closer (K L : Int) (s n : Int × Int) (hs : InGrid K L s)
    (hn : InGrid K L n) (r : Nat) (h : manhattan n s = r + 1) :
    ∃ c, InGrid K L c ∧ manhattan c s ≤ r ∧ Step c n := by
  obtain ⟨s1, s2, s3, s4⟩ := hs
  obtain ⟨n1, n2, n3, n4⟩ := hn
  unfold manhattan at h
  by_cases hx1 : s.1 < n.1
  · refine ⟨(n.1 - 1, n.2), ⟨?_, ?_, ?_, ?_⟩, ?_, (1, 0), by simp [directions], ?_⟩
    · simp only; omega
    · simp only; omega
    · simp only; omega
    · simp only; omega
    · unfold manhattan; simp only; omega
    · apply Prod.ext <;> simp
  · by_cases hx2 : n.1 < s.1
    · refine ⟨(n.1 + 1, n.2), ⟨?_, ?_, ?_, ?_⟩, ?_, (-1, 0), by simp [directions], ?_⟩
      · simp only; omega
      · simp only; omega
      · simp only; omega
      · simp only; omega
      · unfold manhattan; simp only; omega
      · apply Prod.ext <;> simp
    · by_cases hy1 : s.2 < n.2
      · refine ⟨(n.1, n.2 - 1), ⟨?_, ?_, ?_, ?_⟩, ?_, (0, 1), by simp [directions], ?_⟩
        · simp only; omega
        · simp only; omega
        · simp only; omega
        · simp only; omega
        · unfold manhattan; simp only; omega
        · apply Prod.ext <;> simp
      · refine ⟨(n.1, n.2 + 1), ⟨?_, ?_, ?_, ?_⟩, ?_, (0, -1), by simp [directions], ?_⟩
        · simp only; omega
        · simp only; omega
        · simp only; omega
        · simp only; omega
        · unfold manhattan; simp only; omega
        · apply Prod.ext <;> simp

/-- A round turns the cells within distance `r` of a seed into the cells within
distance `r + 1`. -/
theorem round_ball (K L : Int) (s1 s2 : Int × Int) (hs1 : InGrid K L s1)
    (hs2 : InGrid K L s2) (st : (Int → Int → Bool) × List (Int × Int)) (r : Nat)
    (hinv : StateInv K L st)
    (hball : ∀ n, n ∈ st.2 ↔ InGrid K L n ∧ (manhattan n s1 ≤ r ∨ manhattan n s2 ≤ r)) :
    StateInv K L (round K L st) ∧
    ∀ n, n ∈ (round K L st).2 ↔
      InGrid K L n ∧ (manhattan n s1 ≤ r + 1 ∨ manhattan n s2 ≤ r + 1) := by
  obtain ⟨hinv2, hmem⟩ := round_spec K L st hinv
  refine ⟨hinv2, fun n => ?_⟩
  rw [hmem]
  constructor
  · rintro (hn | ⟨hin, c, hc, hstep⟩)
    · obtain ⟨hin, hd⟩ := (hball n).mp hn
      exact ⟨hin, by omega⟩
    · obtain ⟨_, hd⟩ := (hball c).mp hc
      have e1 := manhattan_step_le c n s1 hstep
      have e2 := manhattan_step_le c n s2 hstep
      exact ⟨hin, by omega⟩
  · rintro ⟨hin, hd⟩
    by_cases hnear : manhattan n s1 ≤ r ∨ manhattan n s2 ≤ r
    · exact Or.inl ((hball n).mpr ⟨hin, hnear⟩)
    · right
      refine ⟨hin, ?_⟩
      rcases hd with hd | hd
      · obtain ⟨c, hc1, hc2, hc3⟩ := exists_step_closer K L s1 n hs1 hin r (by omega)
        exact ⟨c, (hball c).mpr ⟨hc1, Or.inl hc2⟩, hc3⟩
      · obtain ⟨c, hc1, hc2, hc3⟩ := exists_step_closer K L s2 n hs2 hin r (by omega)
        exact ⟨c, (hball c).mpr ⟨hc1, Or.inr hc2⟩, hc3⟩

theorem rounds_ball (K L : Int) (s1 s2 : Int × Int) (hs1 : InGrid K L s1)
    (hs2 : InGrid K L s2) (i : Nat) (st : (Int → Int → Bool) × List (Int × Int)) (r : Nat)
    (hinv : StateInv K L st)
    (hball : ∀ n, n ∈ st.2 ↔ InGrid K L n ∧ (manhattan n s1 ≤ r ∨ manhattan n s2 ≤ r)) :
    StateInv K L (rounds K L i st) ∧
    ∀ n, n ∈ (rounds K L i st).2 ↔
      InGrid K L n ∧ (manhattan n s1 ≤ r + i ∨ manhattan n s2 ≤ r + i) := by
  induction i generalizing st r with
  | zero => exact ⟨hinv, hball⟩
  | succ i ih =>
    obtain ⟨h1, h2⟩ := round_ball K L s1 s2 hs1 hs2 st r hinv hball
    have := ih (round K L st) (r + 1) h1 h2
    rw [show r + 1 + i = r + (i + 1) by omega] at this
    exact this

theorem initial_spec (K L x1 y1 x2 y2 : Int) (hs1 : InGrid K L (x1, y1))
    (hs2 : InGrid K L (x2, y2)) :
    StateInv K L (initial x1 y1 x2 y2) ∧
    ∀ n, n ∈ (initial x1 y1 x2 y2).2 ↔
      InGrid K L n ∧ (manhattan n (x1, y1) ≤ 0 ∨ manhattan n (x2, y2) ≤ 0) := by
  have hmem : ∀ n, n ∈ (initial x1 y1 x2 y2).2 ↔ n = (x1, y1) ∨ n = (x2, y2) := by
    intro n
    simp only [initial, mem_setInsert, List.not_mem_nil, or_false]
    tauto
  have hzero : ∀ n s : Int × Int, manhattan n s ≤ 0 ↔ n = s := by
    intro n s
    unfold manhattan
    constructor
    · intro h
      apply Prod.ext <;> omega
    · rintro rfl
      simp
  refine ⟨⟨?_, ?_, ?_⟩, ?_⟩
  · intro x y
    rw [hmem]
    simp only [initial, markSpoiled, Prod.mk.injEq]
    by_cases h2 : x = x2 ∧ y = y2
    · simp [h2]
    · by_cases h1 : x = x1 ∧ y = y1
      · simp [h1]
      · simp [h1, h2]
  · exact sorted_setInsert _ _ (sorted_setInsert _ _ List.Pairwise.nil)
  · intro c hc
    rcases (hmem c).mp hc with rfl | rfl
    · exact hs1
    · exact hs2
  · intro n
    rw [hmem, hzero, hzero]
    constructor
    · rintro (rfl | rfl)
      · exact ⟨hs1, Or.inl rfl⟩
      · exact ⟨hs2, Or.inr rfl⟩
    · exact fun h => h.2

/-- After the `R` rounds the set `spoiled` holds, once each, exactly the cells of the
grid whose Manhattan distance to a seed is at most the number of rounds. -/
theorem spoiledAfter_spec (K L R x1 y1 x2 y2 : Int) (hs1 : InGrid K L (x1, y1))
    (hs2 : InGrid K L (x2, y2)) :
    (spoiledAfter K L R x1 y1 x2 y2).Nodup ∧
    ∀ n, n ∈ spoiledAfter K L R x1 y1 x2 y2 ↔
      InGrid K L n ∧ (manhattan n (x1, y1) ≤ R.toNat ∨ manhattan n (x2, y2) ≤ R.toNat) := by
  obtain ⟨h1, h2⟩ := initial_spec K L x1 y1 x2 y2 hs1 hs2
  obtain ⟨⟨_, g2, _⟩, g4⟩ := rounds_ball K L (x1, y1) (x2, y2) hs1 hs2 R.toNat
    (initial x1 y1 x2 y2) 0 h1 h2
  unfold spoiledAfter
  refine ⟨nodup_of_sorted _ g2, fun n => ?_⟩
  rw [g4, Nat.zero_add]

theorem length_le_of_inGrid (K L : Int) (s : List (Int × Int)) (hK : 0 ≤ K) (hL : 0 ≤ L)
    (hnd : s.Nodup) (hin : ∀ c ∈ s, InGrid K L c) : (s.length : Int) ≤ K * L := by
  have hsub : s.toFinset ⊆ Finset.Icc (0 : Int) (K - 1) ×ˢ Finset.Icc (0 : Int) (L - 1) := by
    intro c hc
    obtain ⟨c1, c2, c3, c4⟩ := hin c (List.mem_toFinset.mp hc)
    simp only [Finset.mem_product, Finset.mem_Icc]
    omega
  have hcard := Finset.card_le_card hsub
  rw [List.toFinset_card_of_nodup hnd, Finset.card_product, Int.card_Icc, Int.card_Icc] at hcard
  have e1 : ((K - 1 + 1 - 0).toNat : Int) = K := by omega
  have e2 : ((L - 1 + 1 - 0).toNat : Int) = L := by omega
  have : ((s.length : Nat) : Int) ≤ (((K - 1 + 1 - 0).toNat * (L - 1 + 1 - 0).toNat : Nat) : Int) :=
    Int.ofNat_le.mpr hcard
  rw [Nat.cast_mul, e1, e2] at this
  exact this

/-- When `K * L` is an `int`, the program prints the number of cells of the grid that
are not in `spoiled`. -/
theorem main_of_small_grid (K L R x1 y1 x2 y2 : Int) (hs1 : InGrid K L (x1, y1))
    (hs2 : InGrid K L (x2, y2)) (hKL : K * L ≤ 2147483647) :
    main K L R x1 y1 x2 y2 = some (K * L - (spoiledAfter K L R x1 y1 x2 y2).length) := by
  obtain ⟨hnd, hmem⟩ := spoiledAfter_spec K L R x1 y1 x2 y2 hs1 hs2
  have hK : 0 ≤ K := by have := hs1.1; have := hs1.2.1; simp only at *; omega
  have hL : 0 ≤ L := by have := hs1.2.2.1; have := hs1.2.2.2; simp only at *; omega
  have hlen := length_le_of_inGrid K L (spoiledAfter K L R x1 y1 x2 y2) hK hL hnd
    (fun c hc => ((hmem c).mp hc).1)
  have hcond : 0 ≤ x1 ∧ x1 < K ∧ 0 ≤ y1 ∧ y1 < L ∧ 0 ≤ x2 ∧ x2 < K ∧ 0 ≤ y2 ∧ y2 < L :=
    ⟨hs1.1, hs1.2.1, hs1.2.2.1, hs1.2.2.2, hs2.1, hs2.2.1, hs2.2.2.1, hs2.2.2.2⟩
  unfold main
  rw [if_pos hcond]
  unfold printedValue
  have hnonneg : 0 ≤ K * L := Int.mul_nonneg hK hL
  rw [Raft.toInt32_of_inRange (K * L) (by omega) hKL]
  congr 1
  exact Int.emod_eq_of_lt (by omega) (by omega)

/-! ## The printed count -/

/-- C18, failing input: for `K = L = 65536`, `R = 1` and the seeds `(0, 0)`, `(1, 1)`
the spoiled set after the round is the six cells at Manhattan distance at most `1` from
a seed, `K * L` minus its size is `4294967290`, and the program prints
`18446744073709551610`. -/
theorem main_count_wraps :
    spoiledAfter 65536 65536 1 0 0 1 1 = [(0, 0), (0, 1), (1, 0), (1, 1), (1, 2), (2, 1)] ∧
    (65536 : Int) * 65536 - 6 = 4294967290 ∧
    Raft.toInt32 (65536 * 65536) = 0 ∧
    main 65536 65536 1 0 0 1 1 = some 18446744073709551610 := by
  decide

end Oranges
